import Mathlib

set_option linter.unusedVariables false

/- Shallow embedding of src/chrocalc.py.

   Modelling conventions used throughout this file:
   - Python floats are modelled by exact rationals; every arithmetic step
     the program performs on single-digit operands is modelled exactly,
     float rounding is abstracted away.
   - The global random source is modelled by explicit oracle arguments:
     a function giving the value of each successive random draw.
   - A run of a fragment of the program yields a value of type Res: a
     normal result, the math.nan sentinel that evaluate returns on
     division by zero, or an uncaught Python exception (KeyError,
     IndexError, ValueError, TypeError). -/

/-- Result of running a fragment of the program. -/
inductive Res (α : Type) where
  | ok : α → Res α
  | nan : Res α
  | exn : Res α
  deriving DecidableEq, Repr

def Res.bind {α β : Type} : Res α → (α → Res β) → Res β
  | .ok a, f => f a
  | .nan, _ => .nan
  | .exn, _ => .exn

def Res.map {α β : Type} (f : α → β) : Res α → Res β
  | .ok a => .ok (f a)
  | .nan => .nan
  | .exn => .exn

/-- Decoded symbol: one of the 14 values of the GREYCODE table. -/
inductive Symb where
  | digit : Fin 10 → Symb
  | plus
  | minus
  | times
  | divide
  deriving DecidableEq, Repr

/-- The GREYCODE dictionary: partial map from 4-bit binary code strings to
symbols; 2 of the 16 possible codes are absent, a lookup of one of the two
raises KeyError. -/
def GREYCODE : String → Option Symb
  | "0000" => some (.digit 0)
  | "0001" => some (.digit 1)
  | "0010" => some (.digit 2)
  | "0011" => some (.digit 3)
  | "0100" => some (.digit 4)
  | "0101" => some (.digit 5)
  | "0110" => some (.digit 6)
  | "0111" => some (.digit 7)
  | "1000" => some (.digit 8)
  | "1001" => some (.digit 9)
  | "1010" => some .plus
  | "1011" => some .minus
  | "1100" => some .times
  | "1101" => some .divide
  | _ => none

/-- The value of list(GREYCODE.keys()): the 14 valid codes in dictionary
insertion order. -/
def greycodeKeys : List String :=
  ["0000", "0001", "0010", "0011", "0100", "0101", "0110", "0111",
   "1000", "1001", "1010", "1011", "1100", "1101"]

/-- Key of greycodeKeys at a given index; random.choice and random.sample
over list(GREYCODE.keys()) return keyAt of a uniformly drawn index. -/
def keyAt (k : Fin 14) : String := greycodeKeys.get (Fin.cast (by rfl) k)

/-- generate_chromosome of src/chrocalc.py. The i-th call of random.choice
is modelled by the oracle pick: it returns the key at index pick i, a
uniform draw over the 14 valid codes. A length below 3 raises ValueError. -/
def generate_chromosome (length : ℕ) (pick : ℕ → Fin 14) : Res (List String) :=
  if length < 3 then .exn
  else .ok ((List.range length).map fun i => keyAt (pick i))

/-- The str.isdigit test on a decoded one-character symbol string. -/
def isDigitSym : Symb → Bool
  | .digit _ => true
  | _ => false

/-- One iteration of the decode loop, on the state (output, now_operator). -/
def decodeStep : List Symb × Bool → Symb → List Symb × Bool
  | (out, nowOp), s =>
    if nowOp && !(isDigitSym s) then (out ++ [s], false)
    else if !nowOp && isDigitSym s then (out ++ [s], true)
    else (out, nowOp)

/-- The GREYCODE lookups performed by the decode loop, one per gene; a key
missing from the dictionary raises KeyError, which aborts decode. -/
def lookupGenes : List String → Option (List Symb)
  | [] => some []
  | g :: rest =>
    match GREYCODE g, lookupGenes rest with
    | some s, some ss => some (s :: ss)
    | _, _ => none

/-- decode of src/chrocalc.py: scan the genes with the now_operator flag,
then drop a trailing non-digit token if present. -/
def decode (chromosome : List String) : Res (List Symb) :=
  match lookupGenes chromosome with
  | none => .exn
  | some syms =>
    let st := syms.foldl decodeStep ([], false)
    match st.1.getLast? with
    | some s => if !(isDigitSym s) then .ok st.1.dropLast else .ok st.1
    | none => .ok st.1

/-- Entry of the working list inside _evaluate: either an original decoded
symbol string, or a computed float written back over a collapsed window. -/
inductive Tok where
  | sym : Symb → Tok
  | flt : ℚ → Tok
  deriving DecidableEq, Repr

/-- Test x == "*" or x == "/" on a working-list entry (a computed float
compares unequal to every operator string). -/
def isMulTok : Tok → Bool
  | .sym .times => true
  | .sym .divide => true
  | _ => false

/-- Test x == "+" or x == "-" on a working-list entry. -/
def isAddTok : Tok → Bool
  | .sym .plus => true
  | .sym .minus => true
  | _ => false

/-- Entries float() accepts: digit strings and floats. -/
def isVal : Tok → Bool
  | .sym (.digit _) => true
  | .flt _ => true
  | _ => false

/-- The float() call: parses a digit string, passes a float through, and
raises ValueError on an operator string. -/
def pyFloat : Tok → Res ℚ
  | .sym (.digit d) => .ok (d : ℚ)
  | .sym _ => .exn
  | .flt q => .ok q

/-- Total numeric reading of a working-list entry, with junk value 0 for
operator strings; used only in specification-side statements. -/
def valQ : Tok → ℚ
  | .sym (.digit d) => (d : ℚ)
  | .flt q => q
  | _ => 0

/-- Python list indexing l[j]: a negative index counts from the end, an
index out of range raises IndexError. -/
def pyGet (l : List Tok) (j : ℤ) : Res Tok :=
  let k : ℤ := if j < 0 then j + l.length else j
  if 0 ≤ k ∧ k < (l.length : ℤ) then
    match l.get? k.toNat with
    | some t => .ok t
    | none => .exn
  else .exn

/-- Python element assignment l[j] = t. -/
def pySet (l : List Tok) (j : ℤ) (t : Tok) : Res (List Tok) :=
  let k : ℤ := if j < 0 then j + l.length else j
  if 0 ≤ k ∧ k < (l.length : ℤ) then .ok (l.set k.toNat t)
  else .exn

/-- Python deletion del l[j]. -/
def pyDel (l : List Tok) (j : ℤ) : Res (List Tok) :=
  let k : ℤ := if j < 0 then j + l.length else j
  if 0 ≤ k ∧ k < (l.length : ℤ) then .ok (l.eraseIdx k.toNat)
  else .exn

/-- float(l[j]): indexing followed by conversion. -/
def pyFloatAt (l : List Tok) (j : ℤ) : Res ℚ :=
  Res.bind (pyGet l j) pyFloat

/-- Index of the first entry satisfying p, as found by the enumerate scan
of the inner for loop of _evaluate. -/
def findOp (p : Tok → Bool) : List Tok → Option ℕ
  | [] => none
  | t :: rest => if p t then some 0 else (findOp p rest).map (· + 1)

/-- The in-place window replacement of _evaluate at operator index i:
output[i] = total, del output[i-1], del output[i]. -/
def collapseWrite (l : List Tok) (i : ℕ) (v : ℚ) : Res (List Tok) :=
  Res.bind (pySet l i (.flt v)) fun l1 =>
  Res.bind (pyDel l1 ((i : ℤ) - 1)) fun l2 =>
  pyDel l2 (i : ℤ)

/-- One multiplicative collapse of _evaluate at index i, in source order:
for "*" convert the left then right neighbour and multiply; for "/" first
convert the right neighbour, return nan if it is exactly zero, otherwise
divide. -/
def mulCollapse (l : List Tok) (i : ℕ) : Res (List Tok) :=
  match l.get? i with
  | some (.sym .times) =>
    Res.bind (pyFloatAt l ((i : ℤ) - 1)) fun a =>
    Res.bind (pyFloatAt l ((i : ℤ) + 1)) fun b =>
    collapseWrite l i (a * b)
  | some (.sym .divide) =>
    Res.bind (pyFloatAt l ((i : ℤ) + 1)) fun b0 =>
    if b0 = 0 then .nan
    else
      Res.bind (pyFloatAt l ((i : ℤ) - 1)) fun a =>
      Res.bind (pyFloatAt l ((i : ℤ) + 1)) fun b =>
      collapseWrite l i (a / b)
  | _ => .exn

/-- One additive collapse of _evaluate at index i. -/
def addCollapse (l : List Tok) (i : ℕ) : Res (List Tok) :=
  match l.get? i with
  | some (.sym .plus) =>
    Res.bind (pyFloatAt l ((i : ℤ) - 1)) fun a =>
    Res.bind (pyFloatAt l ((i : ℤ) + 1)) fun b =>
    collapseWrite l i (a + b)
  | some (.sym .minus) =>
    Res.bind (pyFloatAt l ((i : ℤ) - 1)) fun a =>
    Res.bind (pyFloatAt l ((i : ℤ) + 1)) fun b =>
    collapseWrite l i (a - b)
  | _ => .exn

/-- The first while loop of _evaluate, with an explicit fuel bound on the
number of collapses. Each collapse shortens the list by two entries, so
the loop performs at most length many collapses; the fuel-exhausted branch
is unreachable when the loop is started with fuel = length. -/
def mulLoopFuel : ℕ → List Tok → Res (List Tok)
  | 0, l =>
    match findOp isMulTok l with
    | none => .ok l
    | some _ => .exn
  | f + 1, l =>
    match findOp isMulTok l with
    | none => .ok l
    | some i =>
      match mulCollapse l i with
      | .ok next => mulLoopFuel f next
      | .nan => .nan
      | .exn => .exn

/-- The second while loop of _evaluate, with the same fuel convention. -/
def addLoopFuel : ℕ → List Tok → Res (List Tok)
  | 0, l =>
    match findOp isAddTok l with
    | none => .ok l
    | some _ => .exn
  | f + 1, l =>
    match findOp isAddTok l with
    | none => .ok l
    | some i =>
      match addCollapse l i with
      | .ok next => addLoopFuel f next
      | .nan => .nan
      | .exn => .exn

def mulLoop (l : List Tok) : Res (List Tok) := mulLoopFuel l.length l

def addLoop (l : List Tok) : Res (List Tok) := addLoopFuel l.length l

/-- The _evaluate function of src/chrocalc.py: copy the decoded list, run
the multiplicative pass, run the additive pass, then return float of the
single remaining entry, or the raw first entry when the length is not 1
(IndexError on an empty list). -/
def pyEvaluate (decoded : List Symb) : Res Tok :=
  let out := decoded.map Tok.sym
  Res.bind (mulLoop out) fun o1 =>
  Res.bind (addLoop o1) fun o2 =>
  if o2.length = 1 then Res.map Tok.flt (Res.bind (pyGet o2 0) pyFloat)
  else pyGet o2 0

/-- The fitness function of src/chrocalc.py. The first source line tests
whether math.nan is a member of the decoded list; the decoded list holds
only symbol strings, never the nan float, so that test is always false and
contributes nothing. The identity test result is math.nan is true exactly
for the nan sentinel returned by _evaluate; subtracting a string from the
target raises TypeError. -/
def pyFitness (decoded : List Symb) (target : ℚ) : Res ℚ :=
  match pyEvaluate decoded with
  | .nan => .nan
  | .exn => .exn
  | .ok (.flt q) => .ok |target - q|
  | .ok (.sym _) => .exn

/-- The accumulating walk of roulette: spinner starts at 0, each entry adds
its fitness, the first entry whose running total reaches the drawn value is
returned; falling off the end returns None. -/
def rouletteGo (spinner selection : ℚ) : List (List String × ℚ) → Option (List String)
  | [] => none
  | (c, f) :: rest =>
    if selection ≤ spinner + f then some c else rouletteGo (spinner + f) selection rest

/-- roulette of src/chrocalc.py. The call random.uniform(0, total) is
modelled by the argument selection, constrained to the interval
[0, total] in the theorems below; uniform(0, 0) always returns 0. -/
def roulette (old_pool : List (List String × ℚ)) (selection : ℚ) : Option (List String) :=
  rouletteGo 0 selection old_pool

/-- cross of src/chrocalc.py. The call random.random() is modelled by the
argument r, in [0, 1); the call randint(1, max_slice_point) is modelled by
the argument p, in [1, max_slice_point]; randint raises ValueError when
max_slice_point is below 1. max_slice_point is len(list(zip(c1, c2))) - 1,
the length of the shorter parent minus one. -/
def cross (c1 c2 : List String) (rate r : ℚ) (p : ℕ) : Res (List String) :=
  if r ≤ rate then
    if min c1.length c2.length - 1 < 1 then .exn
    else .ok (c1.take p ++ c2.drop p)
  else .ok c1

/-- mutate of src/chrocalc.py: copy the input, then for each position i
replace the gene by a fresh uniform key when the i-th random draw is at
most rate. The draws are modelled by r, each in [0, 1); the sample call by
pick. -/
def mutate (c : List String) (rate : ℚ) (r : ℕ → ℚ) (pick : ℕ → Fin 14) : List String :=
  (List.range c.length).foldl
    (fun out i => if r i ≤ rate then out.set i (keyAt (pick i)) else out) c

/- Store model for the frame claim: Python lists are mutable objects, so to
state that mutate and cross never modify their inputs we run them over an
explicit store of list cells addressed by references. -/

/-- A store of chromosome list objects; a reference is an index into it. -/
structure Store where
  cells : List (List String)

def Store.alloc (s : Store) (v : List String) : Store × ℕ :=
  (⟨s.cells ++ [v]⟩, s.cells.length)

def Store.read (s : Store) (r : ℕ) : List String := s.cells.getD r []

def Store.write (s : Store) (r : ℕ) (v : List String) : Store :=
  ⟨s.cells.set r v⟩

/-- mutate run over the store: output = c[:] allocates a fresh cell with a
copy of the input, then each triggered position assigns into the fresh
cell only. -/
def mutateS (s : Store) (c : ℕ) (rate : ℚ) (r : ℕ → ℚ) (pick : ℕ → Fin 14) :
    Store × ℕ :=
  let a := s.alloc (s.read c)
  let s1 := a.1
  let out := a.2
  let s2 := (List.range (s1.read out).length).foldl
    (fun st i =>
      if r i ≤ rate then st.write out ((st.read out).set i (keyAt (pick i))) else st)
    s1
  (s2, out)

/-- cross run over the store: output = c1[:] allocates a copy; the
crossover branch allocates the concatenation as another fresh cell; no
write ever targets an input cell. -/
def crossS (s : Store) (c1 c2 : ℕ) (rate r : ℚ) (p : ℕ) : Res (Store × ℕ) :=
  let a := s.alloc (s.read c1)
  let s1 := a.1
  let out := a.2
  if r ≤ rate then
    if min (s1.read c1).length (s1.read c2).length - 1 < 1 then .exn
    else
      let b := s1.alloc ((s1.read c1).take p ++ (s1.read c2).drop p)
      .ok (b.1, b.2)
  else .ok (s1, out)

/- Specification-side definitions. -/

/-- Well-formed alternating token sequence: digit, operator, digit, ...,
digit, starting and ending with a digit (section 3 of the spec). -/
inductive WFTokens : List Symb → Prop
  | single (d : Fin 10) : WFTokens [.digit d]
  | cons (d : Fin 10) (o : Symb) (l : List Symb) :
      isDigitSym o = false → WFTokens l → WFTokens (.digit d :: o :: l)

/-- Working lists of good shape: value entries at even positions, operator
strings at odd positions, odd length. This is the invariant the evaluator
preserves. -/
inductive GoodToks : List Tok → Prop
  | single (v : Tok) : isVal v = true → GoodToks [v]
  | cons (v o : Tok) (l : List Tok) :
      isVal v = true → (isMulTok o = true ∨ isAddTok o = true) → GoodToks l →
      GoodToks (v :: o :: l)

/-- Numeric value of the head of a working list (junk 0 when empty). -/
def headQ : List Tok → ℚ
  | [] => 0
  | t :: _ => valQ t

/-- Operator and right-operand pairs of an alternating working list, read
left to right. -/
def pairsTA : List Tok → List (Symb × ℚ)
  | .sym o :: v :: rest => (o, valQ v) :: pairsTA rest
  | _ => []

def pairsT : List Tok → List (Symb × ℚ)
  | _ :: rest => pairsTA rest
  | [] => []

/-- Modelled from the spec, section 4.4, step 1: resolve every
multiplicative operator, scanning left to right with left-to-right
associativity inside each run of multiplicative operators, before any
additive operator is touched; division by an exact zero right operand
yields the invalid result. The additive operators and the values between
them are kept for step 2. -/
def specMulPhase (x : ℚ) : List (Symb × ℚ) → Res (ℚ × List (Symb × ℚ))
  | [] => .ok (x, [])
  | (.times, b) :: rest => specMulPhase (x * b) rest
  | (.divide, b) :: rest => if b = 0 then .nan else specMulPhase (x / b) rest
  | (o, b) :: rest => Res.map (fun y => (x, (o, y.1) :: y.2)) (specMulPhase b rest)

/-- Modelled from the spec, section 4.4, step 2: fold the remaining
additive operators strictly left to right. -/
def specAddPhase (x : ℚ) : List (Symb × ℚ) → Res ℚ
  | [] => .ok x
  | (.plus, b) :: rest => specAddPhase (x + b) rest
  | (.minus, b) :: rest => specAddPhase (x - b) rest
  | _ => .exn

/-- Numeric value of a decoded symbol, junk 0 for operators. -/
def symQ : Symb → ℚ
  | .digit d => (d : ℚ)
  | _ => 0

/-- Head value of a decoded token sequence. -/
def headD : List Symb → ℚ
  | s :: _ => symQ s
  | [] => 0

/-- Operator and operand pairs of a decoded token sequence. -/
def pairsDA : List Symb → List (Symb × ℚ)
  | o :: v :: rest => (o, symQ v) :: pairsDA rest
  | _ => []

def pairsD : List Symb → List (Symb × ℚ)
  | _ :: rest => pairsDA rest
  | [] => []

/-- Modelled from the spec, section 4.4: the reference evaluator, all
multiplicative operators first, then all additive operators, both tiers
strictly left to right. -/
def specEvaluate (l : List Symb) : Res ℚ :=
  match specMulPhase (headD l) (pairsD l) with
  | .ok y => specAddPhase y.1 y.2
  | .nan => .nan
  | .exn => .exn

/-- Cumulative fitness of the first k pool entries (section 4.6). -/
def cumFit (pool : List (List String × ℚ)) (k : ℕ) : ℚ :=
  ((pool.take k).map Prod.snd).sum

/- Helper lemmas. -/

theorem mem_of_mem_set {α : Type} {a b : α} :
    ∀ {l : List α} {i : ℕ}, a ∈ l.set i b → a ∈ l ∨ a = b := by
  intro l
  induction l with
  | nil => intro i h; simp [List.set] at h
  | cons hd tl ih =>
    intro i h
    cases i with
    | zero =>
      simp only [List.set] at h
      rcases List.mem_cons.1 h with h1 | h1
      · exact Or.inr h1
      · exact Or.inl (List.mem_cons_of_mem _ h1)
    | succ j =>
      simp only [List.set] at h
      rcases List.mem_cons.1 h with h1 | h1
      · exact Or.inl (h1 ▸ List.mem_cons_self _ _)
      · rcases ih h1 with h2 | h2
        · exact Or.inl (List.mem_cons_of_mem _ h2)
        · exact Or.inr h2

theorem keyAt_mem (k : Fin 14) : keyAt k ∈ greycodeKeys := List.get_mem _ _ _

theorem greycodeKeys_isSome : ∀ g ∈ greycodeKeys, (GREYCODE g).isSome := by decide

theorem cumFit_cons (c : List String) (f : ℚ) (tl : List (List String × ℚ)) (k : ℕ) :
    cumFit ((c, f) :: tl) (k + 1) = f + cumFit tl k := by
  simp [cumFit]

theorem cumFit_zero (pool : List (List String × ℚ)) : cumFit pool 0 = 0 := by
  simp [cumFit]

/-- C8: generate_chromosome raises ValueError exactly when the requested
length is below 3; otherwise it returns a chromosome of exactly that many
genes, the i-th being the uniformly drawn key at oracle index pick i, so
every gene lies among the 14 valid codes. -/
theorem generate_chromosome_spec (length : ℕ) (pick : ℕ → Fin 14) :
    (length < 3 → generate_chromosome length pick = .exn) ∧
    (3 ≤ length → ∃ out, generate_chromosome length pick = .ok out ∧
      out.length = length ∧
      (∀ i : ℕ, i < length → out.get? i = some (keyAt (pick i))) ∧
      ∀ g ∈ out, g ∈ greycodeKeys) := by
  constructor
  · intro h; simp [generate_chromosome, h]
  · intro h
    refine ⟨(List.range length).map fun i => keyAt (pick i),
      by simp [generate_chromosome, Nat.not_lt.2 h], by simp, ?_, ?_⟩
    · intro i hi
      rw [List.get?_map, List.get?_range hi]; rfl
    · intro g hg
      obtain ⟨i, _, hi⟩ := List.mem_map.1 hg
      exact hi ▸ keyAt_mem _

/-- Closed witness for the C8 theorem at lengths 2 and 3. -/
theorem generate_chromosome_spec_witness :
    generate_chromosome 2 (fun _ => 0) = .exn ∧
    ∃ out, generate_chromosome 3 (fun _ => 0) = .ok out ∧
      out.length = 3 ∧
      (∀ i : ℕ, i < 3 → out.get? i = some (keyAt ((fun _ => 0) i))) ∧
      ∀ g ∈ out, g ∈ greycodeKeys :=
  ⟨(generate_chromosome_spec 2 (fun _ => 0)).1 (by decide),
   (generate_chromosome_spec 3 (fun _ => 0)).2 (by decide)⟩

/-- C6: on equal-length parents of length at least 2, with rate 1.0 the
crossover branch is always taken (random.random is at most 1), the child
is the genes of c1 before the point followed by the genes of c2 from the
point on, of unchanged length; and whenever the draw exceeds the rate an
unmodified copy of c1 is returned instead. -/
theorem cross_spec (c1 c2 : List String) (r : ℚ) (p : ℕ)
    (hlen : c1.length = c2.length) (h2 : 2 ≤ c1.length)
    (hp1 : 1 ≤ p) (hp2 : p ≤ c1.length - 1) (hr0 : 0 ≤ r) (hr1 : r < 1) :
    cross c1 c2 1 r p = .ok (c1.take p ++ c2.drop p) ∧
    (c1.take p ++ c2.drop p).length = c1.length ∧
    ∀ rate rr : ℚ, rate < rr → cross c1 c2 rate rr p = .ok c1 := by
  refine ⟨?_, ?_, ?_⟩
  · have hguard : ¬(min c1.length c2.length - 1 < 1) := by omega
    simp [cross, hr1.le, hguard]
  · have hple : p ≤ c1.length := by omega
    simp [List.length_take, List.length_drop]
    omega
  · intro rate rr hlt
    simp [cross, not_le.2 hlt]

/-- Closed witness for the C6 theorem on concrete parents. -/
theorem cross_spec_witness :
    cross ["0000", "0001"] ["1100", "1101"] 1 0 1 = .ok (["0000", "0001"].take 1 ++ ["1100", "1101"].drop 1) ∧
    ((["0000", "0001"].take 1 ++ (["1100", "1101"] : List String).drop 1)).length = (["0000", "0001"] : List String).length ∧
    ∀ rate rr : ℚ, rate < rr → cross ["0000", "0001"] ["1100", "1101"] rate rr 1 = .ok ["0000", "0001"] :=
  cross_spec ["0000", "0001"] ["1100", "1101"] 0 1 (by decide) (by decide)
    (by decide) (by decide) (by norm_num) (by norm_num)

/-- C7 as stated is false on the code: random.random can return exactly
0.0, the source tests random() <= rate, and with rate 0 that test then
succeeds and the position is resampled. At chromosome ["0000"], with the
draw for position 0 equal to 0 and the fresh sample being the key at index
1, mutate returns ["0001"], not a list value-equal to the input. -/
theorem mutate_zero_cex :
    mutate ["0000"] 0 (fun _ => 0) (fun _ => 1) ≠ ["0000"] := by decide

/-- C7 amended: for every outcome of the random source in which every draw
of random.random is nonzero (all outcomes outside a single measure-zero
event per position), mutate(c, 0) returns a list value-equal to c. -/
theorem mutate_zero_rate (c : List String) (r : ℕ → ℚ) (pick : ℕ → Fin 14)
    (h : ∀ i, 0 < r i) : mutate c 0 r pick = c := by
  unfold mutate
  have key : ∀ (L : List ℕ) (acc : List String),
      L.foldl (fun out i => if r i ≤ 0 then out.set i (keyAt (pick i)) else out) acc = acc := by
    intro L
    induction L with
    | nil => intro acc; rfl
    | cons a t ih => intro acc; simp only [List.foldl_cons, not_le.2 (h a), if_false]; exact ih acc
  exact key _ c

/-- Closed witness for the amended C7 theorem. -/
theorem mutate_zero_rate_witness :
    mutate ["0000", "1100"] 0 (fun _ => 1 / 2) (fun _ => 1) = ["0000", "1100"] :=
  mutate_zero_rate ["0000", "1100"] (fun _ => 1 / 2) (fun _ => 1) (fun i => by norm_num)

/-- The accumulating walk returns the first entry whose running total
reaches the drawn value, provided the total of the whole pool does. -/
theorem rouletteGo_first (pool : List (List String × ℚ)) :
    ∀ spinner sel : ℚ, pool ≠ [] →
      sel ≤ spinner + cumFit pool pool.length →
      ∃ j, ∃ hj : j < pool.length,
        rouletteGo spinner sel pool = some (pool.get ⟨j, hj⟩).1 ∧
        sel ≤ spinner + cumFit pool (j + 1) ∧
        ∀ k, k < j → ¬(sel ≤ spinner + cumFit pool (k + 1)) := by
  induction pool with
  | nil => intro _ _ hne; exact absurd rfl hne
  | cons hd tl ih =>
    obtain ⟨c, f⟩ := hd
    intro spinner sel hne hle
    by_cases hcase : sel ≤ spinner + f
    · refine ⟨0, by simp, ?_, ?_, ?_⟩
      · simp [rouletteGo, hcase]
      · simpa [cumFit_cons, cumFit_zero] using hcase
      · intro k hk; omega
    · have htl : tl ≠ [] := by
        intro hnil
        subst hnil
        simp [cumFit_cons, cumFit] at hle
        exact hcase hle
      have hle2 : sel ≤ (spinner + f) + cumFit tl tl.length := by
        have := cumFit_cons c f tl tl.length
        rw [List.length_cons, this] at hle
        linarith
      obtain ⟨j, hj, h1, h2, h3⟩ := ih (spinner + f) sel htl hle2
      refine ⟨j + 1, by simpa using Nat.succ_lt_succ hj, ?_, ?_, ?_⟩
      · simpa [rouletteGo, hcase] using h1
      · rw [cumFit_cons]; linarith
      · intro k hk
        cases k with
        | zero => rw [cumFit_cons, cumFit_zero, add_zero]; exact hcase
        | succ k0 =>
          have := h3 k0 (by omega)
          rw [cumFit_cons]
          intro hcontra
          exact this (by linarith)

/-- C5: for a non-empty pool of valid non-negative fitness values and a
drawn value in [0, total], roulette returns the first chromosome whose
cumulative fitness total reaches the draw; and with draw 0, the draw that
uniform(0, 0) deterministically makes when the total is zero, the first
pool entry is returned. -/
theorem roulette_spec (pool : List (List String × ℚ)) (sel : ℚ)
    (hne : pool ≠ []) (hnn : ∀ q ∈ pool, 0 ≤ q.2)
    (h0 : 0 ≤ sel) (hle : sel ≤ cumFit pool pool.length) :
    (∃ j, ∃ hj : j < pool.length,
      roulette pool sel = some (pool.get ⟨j, hj⟩).1 ∧
      sel ≤ cumFit pool (j + 1) ∧
      ∀ k, k < j → cumFit pool (k + 1) < sel) ∧
    roulette pool 0 = pool.head?.map Prod.fst := by
  constructor
  · obtain ⟨j, hj, h1, h2, h3⟩ := rouletteGo_first pool 0 sel hne (by linarith)
    refine ⟨j, hj, h1, by linarith, ?_⟩
    intro k hk
    have := h3 k hk
    rw [zero_add] at this
    exact lt_of_not_le this
  · match pool, hne with
    | (c, f) :: tl, _ =>
      have hf : (0 : ℚ) ≤ f := hnn (c, f) (List.mem_cons_self _ _)
      simp [roulette, rouletteGo, hf]

/-- Closed witness for the C5 theorem on a concrete pool. -/
theorem roulette_spec_witness :
    (∃ j, ∃ hj : j < ([(["0000"], (0 : ℚ)), (["0001"], 2)] : List (List String × ℚ)).length,
      roulette [(["0000"], 0), (["0001"], 2)] 1
        = some (([(["0000"], (0 : ℚ)), (["0001"], 2)] : List (List String × ℚ)).get ⟨j, hj⟩).1 ∧
      (1 : ℚ) ≤ cumFit [(["0000"], 0), (["0001"], 2)] (j + 1) ∧
      ∀ k, k < j → cumFit [(["0000"], 0), (["0001"], 2)] (k + 1) < 1) ∧
    roulette [(["0000"], 0), (["0001"], 2)] 0
      = ([(["0000"], (0 : ℚ)), (["0001"], 2)] : List (List String × ℚ)).head?.map Prod.fst :=
  roulette_spec [(["0000"], 0), (["0001"], 2)] 1 (by simp)
    (by intro q hq; rcases List.mem_cons.1 hq with h | h
        · subst h; norm_num
        · simp at h; subst h; norm_num)
    (by norm_num) (by norm_num [cumFit])

/-- A chromosome whose lookups all succeed decodes without an exception. -/
theorem decode_ok_of_lookup {c : List String} {syms : List Symb}
    (hsyms : lookupGenes c = some syms) :
    ∃ out, decode c = .ok out := by
  unfold decode
  rw [hsyms]
  dsimp only
  cases hlast : (syms.foldl decodeStep ([], false)).1.getLast? with
  | none => exact ⟨_, rfl⟩
  | some s =>
    cases hds : isDigitSym s with
    | true =>
      refine ⟨(syms.foldl decodeStep ([], false)).1, ?_⟩
      dsimp only
      rw [hds]
      simp
    | false =>
      refine ⟨(syms.foldl decodeStep ([], false)).1.dropLast, ?_⟩
      dsimp only
      rw [hds]
      simp

/-- C10: every gene produced by the factory lies among the 14 valid codes;
mutation of a chromosome whose genes are valid codes yields only valid
codes (untouched positions are copied, resampled positions draw from the
key list); and decode of a chromosome of valid codes never encounters an
undefined code, that is, never raises KeyError. -/
theorem valid_codes_safety :
    (∀ length pick out, generate_chromosome length pick = .ok out →
      ∀ g ∈ out, (GREYCODE g).isSome) ∧
    (∀ c rate r pick, (∀ g ∈ c, (GREYCODE g).isSome) →
      ∀ g ∈ mutate c rate r pick, (GREYCODE g).isSome) ∧
    (∀ c, (∀ g ∈ c, (GREYCODE g).isSome) → ∃ syms, decode c = .ok syms) := by
  refine ⟨?_, ?_, ?_⟩
  · intro length pick out hout g hg
    by_cases h3 : length < 3
    · simp [generate_chromosome, h3] at hout
    · simp only [generate_chromosome, h3, if_false, Res.ok.injEq] at hout
      subst hout
      obtain ⟨i, _, hi⟩ := List.mem_map.1 hg
      exact greycodeKeys_isSome _ (hi ▸ keyAt_mem _)
  · intro c rate r pick hvalid g hg
    unfold mutate at hg
    have key : ∀ (L : List ℕ) (acc : List String), (∀ g ∈ acc, (GREYCODE g).isSome) →
        ∀ g ∈ L.foldl (fun out i => if r i ≤ rate then out.set i (keyAt (pick i)) else out) acc,
          (GREYCODE g).isSome := by
      intro L
      induction L with
      | nil => intro acc hacc g hg; exact hacc g hg
      | cons a t ih =>
        intro acc hacc g hg
        rw [List.foldl_cons] at hg
        by_cases hra : r a ≤ rate
        · rw [if_pos hra] at hg
          refine ih _ ?_ g hg
          intro g0 hg0
          rcases mem_of_mem_set hg0 with h | h
          · exact hacc g0 h
          · exact h ▸ greycodeKeys_isSome _ (keyAt_mem _)
        · rw [if_neg hra] at hg
          exact ih _ hacc g hg
    exact key _ c hvalid g hg
  · intro c hvalid
    have hlook : ∀ (l : List String), (∀ g ∈ l, (GREYCODE g).isSome) →
        ∃ syms, lookupGenes l = some syms := by
      intro l
      induction l with
      | nil => intro _; exact ⟨[], rfl⟩
      | cons g rest ih =>
        intro hv
        obtain ⟨s, hs⟩ := Option.isSome_iff_exists.1 (hv g (List.mem_cons_self _ _))
        obtain ⟨ss, hss⟩ := ih fun g0 hg0 => hv g0 (List.mem_cons_of_mem _ hg0)
        exact ⟨s :: ss, by simp [lookupGenes, hs, hss]⟩
    obtain ⟨syms, hsyms⟩ := hlook c hvalid
    exact decode_ok_of_lookup hsyms

/-- Closed witness for the C10 theorem: a factory output, a mutation of it,
and a decode of a concrete valid chromosome. -/
theorem valid_codes_safety_witness :
    (∀ g ∈ mutate ["0000", "1100", "0011"] (1 / 2) (fun _ => 1 / 4) (fun _ => 13),
      (GREYCODE g).isSome) ∧
    ∃ syms, decode ["0000", "1100", "0011"] = .ok syms :=
  ⟨valid_codes_safety.2.1 ["0000", "1100", "0011"] (1 / 2) (fun _ => 1 / 4) (fun _ => 13)
      (by decide),
   valid_codes_safety.2.2 ["0000", "1100", "0011"] (by decide)⟩

/- Store lemmas for the frame claim. -/

theorem store_alloc_snd (s : Store) (v : List String) : (s.alloc v).2 = s.cells.length := rfl

theorem store_alloc_len (s : Store) (v : List String) :
    (s.alloc v).1.cells.length = s.cells.length + 1 := by
  simp [Store.alloc]

theorem store_read_alloc_old (s : Store) (v : List String) (r : ℕ)
    (hr : r < s.cells.length) : (s.alloc v).1.read r = s.read r := by
  simp [Store.alloc, Store.read, List.getD_eq_getElem?_getD, List.getElem?_append_left hr]

theorem store_read_alloc_new (s : Store) (v : List String) :
    (s.alloc v).1.read (s.alloc v).2 = v := by
  simp [Store.alloc, Store.read, store_alloc_snd, List.getD_eq_getElem?_getD,
    List.getElem?_concat_length]

theorem store_read_write_ne (s : Store) (t : ℕ) (v : List String) (r : ℕ) (h : r ≠ t) :
    (s.write t v).read r = s.read r := by
  simp [Store.write, Store.read, List.getD_eq_getElem?_getD, List.getElem?_set_ne (Ne.symm h)]

theorem store_read_write_self (s : Store) (t : ℕ) (v : List String)
    (h : t < s.cells.length) : (s.write t v).read t = v := by
  simp [Store.write, Store.read, List.getD_eq_getElem?_getD, List.getElem?_set_eq h]

theorem store_write_len (s : Store) (t : ℕ) (v : List String) :
    (s.write t v).cells.length = s.cells.length := by
  simp [Store.write]

theorem mutateS_props (s : Store) (c : ℕ) (rate : ℚ) (r : ℕ → ℚ) (pick : ℕ → Fin 14)
    (hc : c < s.cells.length) :
    (mutateS s c rate r pick).1.read c = s.read c ∧
    (mutateS s c rate r pick).2 ≠ c ∧
    (mutateS s c rate r pick).1.read (mutateS s c rate r pick).2
      = mutate (s.read c) rate r pick := by
  have hm : mutateS s c rate r pick
      = ((List.range ((s.alloc (s.read c)).1.read (s.alloc (s.read c)).2).length).foldl
          (fun st i =>
            if r i ≤ rate then
              st.write (s.alloc (s.read c)).2
                ((st.read (s.alloc (s.read c)).2).set i (keyAt (pick i)))
            else st)
          (s.alloc (s.read c)).1,
         (s.alloc (s.read c)).2) := rfl
  have hnew : (s.alloc (s.read c)).1.read (s.alloc (s.read c)).2 = s.read c :=
    store_read_alloc_new s _
  have hco : c ≠ (s.alloc (s.read c)).2 := by
    rw [store_alloc_snd]; omega
  have key : ∀ (L : List ℕ) (st : Store) (acc : List String),
      st.read c = s.read c → st.read (s.alloc (s.read c)).2 = acc →
      st.cells.length = s.cells.length + 1 →
      (L.foldl (fun st0 i =>
          if r i ≤ rate then
            st0.write (s.alloc (s.read c)).2
              ((st0.read (s.alloc (s.read c)).2).set i (keyAt (pick i)))
          else st0) st).read c = s.read c ∧
      (L.foldl (fun st0 i =>
          if r i ≤ rate then
            st0.write (s.alloc (s.read c)).2
              ((st0.read (s.alloc (s.read c)).2).set i (keyAt (pick i)))
          else st0) st).read (s.alloc (s.read c)).2
        = L.foldl (fun a i => if r i ≤ rate then a.set i (keyAt (pick i)) else a) acc ∧
      (L.foldl (fun st0 i =>
          if r i ≤ rate then
            st0.write (s.alloc (s.read c)).2
              ((st0.read (s.alloc (s.read c)).2).set i (keyAt (pick i)))
          else st0) st).cells.length = s.cells.length + 1 := by
    intro L
    induction L with
    | nil =>
      intro st acc h1 h2 h3
      exact ⟨h1, h2, h3⟩
    | cons a t ih =>
      intro st acc h1 h2 h3
      simp only [List.foldl_cons]
      by_cases hra : r a ≤ rate
      · rw [if_pos hra, if_pos hra]
        refine ih _ _ ?_ ?_ ?_
        · rw [store_read_write_ne _ _ _ _ hco]; exact h1
        · rw [store_read_write_self, h2]
          rw [store_alloc_snd, h3]; omega
        · rw [store_write_len]; exact h3
      · rw [if_neg hra, if_neg hra]
        exact ih _ _ h1 h2 h3
  have base1 : (s.alloc (s.read c)).1.read c = s.read c :=
    store_read_alloc_old s _ c hc
  obtain ⟨k1, k2, k3⟩ := key (List.range ((s.alloc (s.read c)).1.read (s.alloc (s.read c)).2).length)
    (s.alloc (s.read c)).1 (s.read c) base1 hnew (store_alloc_len s _)
  refine ⟨?_, ?_, ?_⟩
  · rw [hm]; exact k1
  · rw [hm]; exact fun hcontra => hco hcontra.symm
  · rw [hm]
    dsimp only
    rw [k2, hnew]
    rfl

theorem crossS_props (s : Store) (c1 c2 : ℕ) (rate r : ℚ) (p : ℕ)
    (hc1 : c1 < s.cells.length) (hc2 : c2 < s.cells.length) :
    ∀ s2 out, crossS s c1 c2 rate r p = .ok (s2, out) →
      s2.read c1 = s.read c1 ∧ s2.read c2 = s.read c2 ∧
      out ≠ c1 ∧ out ≠ c2 ∧
      cross (s.read c1) (s.read c2) rate r p = .ok (s2.read out) := by
  intro s2 out h
  have hold1 : (s.alloc (s.read c1)).1.read c1 = s.read c1 := store_read_alloc_old s _ c1 hc1
  have hold2 : (s.alloc (s.read c1)).1.read c2 = s.read c2 := store_read_alloc_old s _ c2 hc2
  rw [crossS] at h
  dsimp only at h
  by_cases hr : r ≤ rate
  · rw [if_pos hr] at h
    by_cases hguard : min ((s.alloc (s.read c1)).1.read c1).length
        ((s.alloc (s.read c1)).1.read c2).length - 1 < 1
    · rw [if_pos hguard] at h
      exact absurd h (by intro hcontra; cases hcontra)
    · rw [if_neg hguard] at h
      rw [hold1, hold2] at hguard
      injection h with h2
      have hs2 : s2 = ((s.alloc (s.read c1)).1.alloc
          (((s.alloc (s.read c1)).1.read c1).take p ++
            ((s.alloc (s.read c1)).1.read c2).drop p)).1 := (congrArg Prod.fst h2).symm
      have hout : out = ((s.alloc (s.read c1)).1.alloc
          (((s.alloc (s.read c1)).1.read c1).take p ++
            ((s.alloc (s.read c1)).1.read c2).drop p)).2 := (congrArg Prod.snd h2).symm
      have houtval : out = s.cells.length + 1 := by
        rw [hout, store_alloc_snd, store_alloc_len]
      refine ⟨?_, ?_, by omega, by omega, ?_⟩
      · rw [hs2, store_read_alloc_old _ _ c1 (by rw [store_alloc_len]; omega), hold1]
      · rw [hs2, store_read_alloc_old _ _ c2 (by rw [store_alloc_len]; omega), hold2]
      · rw [cross, if_pos hr, if_neg hguard]
        rw [hs2, hout, store_read_alloc_new, hold1, hold2]
  · rw [if_neg hr] at h
    injection h with h2
    have hs2 : s2 = (s.alloc (s.read c1)).1 := (congrArg Prod.fst h2).symm
    have hout : out = (s.alloc (s.read c1)).2 := (congrArg Prod.snd h2).symm
    have houtval : out = s.cells.length := by rw [hout, store_alloc_snd]
    refine ⟨?_, ?_, by omega, by omega, ?_⟩
    · rw [hs2, hold1]
    · rw [hs2, hold2]
    · rw [cross, if_neg hr, hs2, hout, store_read_alloc_new]

/-- C9: run over an explicit store of mutable list objects, neither mutate
nor cross ever writes to an input cell: after either call every input
chromosome cell holds exactly its old value, the returned reference is a
fresh cell distinct from the inputs, and the fresh cell holds the value
the pure operator computes from the unchanged inputs. -/
theorem operators_preserve_inputs :
    (∀ s c rate r pick, c < s.cells.length →
      (mutateS s c rate r pick).1.read c = s.read c ∧
      (mutateS s c rate r pick).2 ≠ c ∧
      (mutateS s c rate r pick).1.read (mutateS s c rate r pick).2
        = mutate (s.read c) rate r pick) ∧
    (∀ s c1 c2 rate r p s2 out, c1 < s.cells.length → c2 < s.cells.length →
      crossS s c1 c2 rate r p = .ok (s2, out) →
      s2.read c1 = s.read c1 ∧ s2.read c2 = s.read c2 ∧
      out ≠ c1 ∧ out ≠ c2 ∧
      cross (s.read c1) (s.read c2) rate r p = .ok (s2.read out)) :=
  ⟨fun s c rate r pick hc => mutateS_props s c rate r pick hc,
   fun s c1 c2 rate r p s2 out hc1 hc2 h => crossS_props s c1 c2 rate r p hc1 hc2 s2 out h⟩

/-- Closed witness for the C9 theorem at a concrete one-cell store. -/
theorem operators_preserve_inputs_witness :
    (mutateS ⟨[["0000", "1100"]]⟩ 0 (1 / 2) (fun _ => 0) (fun _ => 3)).1.read 0
      = Store.read ⟨[["0000", "1100"]]⟩ 0 ∧
    (mutateS ⟨[["0000", "1100"]]⟩ 0 (1 / 2) (fun _ => 0) (fun _ => 3)).2 ≠ 0 ∧
    (mutateS ⟨[["0000", "1100"]]⟩ 0 (1 / 2) (fun _ => 0) (fun _ => 3)).1.read
        (mutateS ⟨[["0000", "1100"]]⟩ 0 (1 / 2) (fun _ => 0) (fun _ => 3)).2
      = mutate (Store.read ⟨[["0000", "1100"]]⟩ 0) (1 / 2) (fun _ => 0) (fun _ => 3) :=
  operators_preserve_inputs.1 ⟨[["0000", "1100"]]⟩ 0 (1 / 2) (fun _ => 0) (fun _ => 3)
    (by decide)

/- Decode shape lemmas for C3. -/

/-- Output lists ending in an operator: a well-formed list followed by one
operator token. This is the shape of the decode output while the flag
expects a digit and the output is non-empty. -/
def WFOp (l : List Symb) : Prop :=
  ∃ l0 o, WFTokens l0 ∧ isDigitSym o = false ∧ l = l0 ++ [o]

theorem wfop_append_digit {l : List Symb} (h : WFOp l) (d : Fin 10) :
    WFTokens (l ++ [.digit d]) := by
  obtain ⟨l0, o, hwf, ho, rfl⟩ := h
  rw [List.append_assoc]
  induction hwf with
  | single d0 => exact .cons d0 o _ ho (.single d)
  | cons d0 o0 l1 ho0 hl1 ih => exact .cons d0 o0 _ ho0 ih

theorem wftokens_ne_nil {l : List Symb} (h : WFTokens l) : l ≠ [] := by
  cases h with
  | single d => simp
  | cons d o l ho hl => simp

theorem wf_last_digit {l : List Symb} (h : WFTokens l) :
    ∃ d : Fin 10, l.getLast? = some (.digit d) := by
  induction h with
  | single d => exact ⟨d, rfl⟩
  | cons d o l ho hl ih =>
    obtain ⟨d0, hd0⟩ := ih
    refine ⟨d0, ?_⟩
    rw [List.getLast?_cons_cons]
    obtain ⟨x, xs, rfl⟩ : ∃ x xs, l = x :: xs := by
      cases l with
      | nil => exact absurd rfl (wftokens_ne_nil hl)
      | cons x xs => exact ⟨x, xs, rfl⟩
    rw [List.getLast?_cons_cons]
    exact hd0

/-- The decode loop invariant: with the flag expecting an operator the
output is well formed; with the flag expecting a digit the output is empty
or well formed plus a trailing operator. -/
def DecodeInv (st : List Symb × Bool) : Prop :=
  (st.2 = true → WFTokens st.1) ∧ (st.2 = false → st.1 = [] ∨ WFOp st.1)

theorem decodeStep_inv (st : List Symb × Bool) (s : Symb) (h : DecodeInv st) :
    DecodeInv (decodeStep st s) := by
  obtain ⟨out, nowOp⟩ := st
  obtain ⟨h1, h2⟩ := h
  cases nowOp with
  | true =>
    cases hs : isDigitSym s with
    | true =>
      simp only [decodeStep, hs]
      exact ⟨h1, h2⟩
    | false =>
      simp only [decodeStep, hs, Bool.not_false, Bool.and_true]
      refine ⟨fun hcontra => by simp at hcontra, fun _ => Or.inr ?_⟩
      exact ⟨out, s, h1 rfl, hs, rfl⟩
  | false =>
    cases hs : isDigitSym s with
    | true =>
      obtain ⟨d, rfl⟩ : ∃ d : Fin 10, s = .digit d := by
        cases s with
        | digit d => exact ⟨d, rfl⟩
        | plus => simp [isDigitSym] at hs
        | minus => simp [isDigitSym] at hs
        | times => simp [isDigitSym] at hs
        | divide => simp [isDigitSym] at hs
      simp only [decodeStep, hs]
      refine ⟨fun _ => ?_, fun hcontra => by simp at hcontra⟩
      rcases h2 rfl with hnil | hop
      · subst hnil; exact .single d
      · exact wfop_append_digit hop d
    | false =>
      simp only [decodeStep, hs]
      exact ⟨h1, h2⟩

theorem decode_fold_inv (syms : List Symb) :
    ∀ st, DecodeInv st → DecodeInv (syms.foldl decodeStep st) := by
  induction syms with
  | nil => intro st h; exact h
  | cons s rest ih =>
    intro st h
    rw [List.foldl_cons]
    exact ih _ (decodeStep_inv st s h)

/-- C3: on a chromosome of valid gene codes, decode succeeds and returns a
sequence that is either empty or strictly alternating digit, operator,
digit and so on, beginning and ending with a digit. -/
theorem decode_alternates (chromosome : List String)
    (hvalid : ∀ g ∈ chromosome, (GREYCODE g).isSome) :
    ∃ out, decode chromosome = .ok out ∧ (out = [] ∨ WFTokens out) := by
  have hlook : ∀ (l : List String), (∀ g ∈ l, (GREYCODE g).isSome) →
      ∃ syms, lookupGenes l = some syms := by
    intro l
    induction l with
    | nil => intro _; exact ⟨[], rfl⟩
    | cons g rest ih =>
      intro hv
      obtain ⟨s, hs⟩ := Option.isSome_iff_exists.1 (hv g (List.mem_cons_self _ _))
      obtain ⟨ss, hss⟩ := ih fun g0 hg0 => hv g0 (List.mem_cons_of_mem _ hg0)
      exact ⟨s :: ss, by simp [lookupGenes, hs, hss]⟩
  obtain ⟨syms, hsyms⟩ := hlook chromosome hvalid
  have hinv : DecodeInv (syms.foldl decodeStep ([], false)) :=
    decode_fold_inv syms ([], false) ⟨fun h => by simp at h, fun _ => Or.inl rfl⟩
  obtain ⟨h1, h2⟩ := hinv
  unfold decode
  rw [hsyms]
  dsimp only
  cases hflag : (syms.foldl decodeStep ([], false)).2 with
  | true =>
    have hwf := h1 hflag
    obtain ⟨d, hd⟩ := wf_last_digit hwf
    rw [hd]
    refine ⟨(syms.foldl decodeStep ([], false)).1, ?_, Or.inr hwf⟩
    simp [isDigitSym]
  | false =>
    rcases h2 hflag with hnil | hop
    · rw [hnil]
      exact ⟨[], rfl, Or.inl rfl⟩
    · obtain ⟨l0, o, hwf0, ho, heq⟩ := hop
      rw [heq, List.getLast?_concat]
      dsimp only
      rw [ho]
      refine ⟨l0, ?_, Or.inr hwf0⟩
      simp [List.dropLast_concat]

/-- Closed witness for the C3 theorem on a concrete chromosome decoding to
2 * 3 and on one decoding to the empty sequence. -/
theorem decode_alternates_witness :
    (∃ out, decode ["0010", "1100", "1010", "0011", "1011"] = .ok out ∧
      (out = [] ∨ WFTokens out)) ∧
    ∃ out, decode ["1100", "1010", "1101"] = .ok out ∧ (out = [] ∨ WFTokens out) :=
  ⟨decode_alternates ["0010", "1100", "1010", "0011", "1011"] (by decide),
   decode_alternates ["1100", "1010", "1101"] (by decide)⟩

/- Token classification lemmas. -/

theorem isVal_not_mul {t : Tok} (h : isVal t = true) : isMulTok t = false := by
  cases t with
  | flt q => rfl
  | sym s => cases s with
    | digit d => rfl
    | plus => rfl
    | minus => rfl
    | times => simp [isVal] at h
    | divide => simp [isVal] at h

theorem isVal_not_add {t : Tok} (h : isVal t = true) : isAddTok t = false := by
  cases t with
  | flt q => rfl
  | sym s => cases s with
    | digit d => rfl
    | plus => simp [isVal] at h
    | minus => simp [isVal] at h
    | times => rfl
    | divide => rfl

theorem pyFloat_isVal {t : Tok} (h : isVal t = true) : pyFloat t = .ok (valQ t) := by
  cases t with
  | flt q => rfl
  | sym s => cases s with
    | digit d => rfl
    | plus => simp [isVal] at h
    | minus => simp [isVal] at h
    | times => simp [isVal] at h
    | divide => simp [isVal] at h

theorem isMulTok_cases {t : Tok} (h : isMulTok t = true) :
    t = .sym .times ∨ t = .sym .divide := by
  cases t with
  | flt q => simp [isMulTok] at h
  | sym s => cases s with
    | digit d => simp [isMulTok] at h
    | plus => simp [isMulTok] at h
    | minus => simp [isMulTok] at h
    | times => exact Or.inl rfl
    | divide => exact Or.inr rfl

theorem isAddTok_cases {t : Tok} (h : isAddTok t = true) :
    t = .sym .plus ∨ t = .sym .minus := by
  cases t with
  | flt q => simp [isAddTok] at h
  | sym s => cases s with
    | digit d => simp [isAddTok] at h
    | plus => exact Or.inl rfl
    | minus => exact Or.inr rfl
    | times => simp [isAddTok] at h
    | divide => simp [isAddTok] at h

/- Python index primitive lemmas at small non-negative indices. -/

theorem pyGet_zero (a : Tok) (l : List Tok) : pyGet (a :: l) 0 = .ok a := by
  simp [pyGet]

theorem pyGet_succ (a : Tok) (l : List Tok) (i : ℕ) :
    pyGet (a :: l) ((i + 1 : ℕ) : ℤ) = pyGet l (i : ℤ) := by
  simp only [pyGet]
  have h1 : ¬ (((i + 1 : ℕ) : ℤ) < 0) := by omega
  have h2 : ¬ ((i : ℤ) < 0) := by omega
  rw [if_neg h1, if_neg h2]
  have htn : ((i + 1 : ℕ) : ℤ).toNat = i + 1 := by omega
  by_cases h : (i : ℤ) < (l.length : ℤ)
  · have ha : (0 : ℤ) ≤ ((i + 1 : ℕ) : ℤ) ∧ ((i + 1 : ℕ) : ℤ) < ((a :: l).length : ℤ) := by
      constructor
      · omega
      · simp only [List.length_cons]; push_cast; omega
    have hb : (0 : ℤ) ≤ (i : ℤ) ∧ (i : ℤ) < (l.length : ℤ) := ⟨by omega, h⟩
    rw [if_pos ha, if_pos hb, htn, Int.toNat_natCast, List.get?_cons_succ]
  · have ha : ¬ ((0 : ℤ) ≤ ((i + 1 : ℕ) : ℤ) ∧ ((i + 1 : ℕ) : ℤ) < ((a :: l).length : ℤ)) := by
      simp only [List.length_cons]; push_cast; omega
    have hb : ¬ ((0 : ℤ) ≤ (i : ℤ) ∧ (i : ℤ) < (l.length : ℤ)) := by omega
    rw [if_neg ha, if_neg hb]

theorem pySet_zero (a : Tok) (l : List Tok) (t : Tok) : pySet (a :: l) 0 t = .ok (t :: l) := by
  simp [pySet]

theorem pySet_succ (a : Tok) (l : List Tok) (i : ℕ) (t : Tok) :
    pySet (a :: l) ((i + 1 : ℕ) : ℤ) t = Res.map (fun l2 => a :: l2) (pySet l (i : ℤ) t) := by
  simp only [pySet]
  have h1 : ¬ (((i + 1 : ℕ) : ℤ) < 0) := by omega
  have h2 : ¬ ((i : ℤ) < 0) := by omega
  rw [if_neg h1, if_neg h2]
  by_cases h : (i : ℤ) < (l.length : ℤ)
  · have ha : (0 : ℤ) ≤ ((i + 1 : ℕ) : ℤ) ∧ ((i + 1 : ℕ) : ℤ) < ((a :: l).length : ℤ) := by
      constructor
      · omega
      · simp only [List.length_cons]; push_cast; omega
    rw [if_pos ha, if_pos ⟨by omega, h⟩]
    have : ((i + 1 : ℕ) : ℤ).toNat = i + 1 := by omega
    simp only [this, Int.toNat_natCast, Res.map, List.set]
  · have ha : ¬ ((0 : ℤ) ≤ ((i + 1 : ℕ) : ℤ) ∧ ((i + 1 : ℕ) : ℤ) < ((a :: l).length : ℤ)) := by
      simp only [List.length_cons]; push_cast; omega
    rw [if_neg ha, if_neg (by omega : ¬ ((0 : ℤ) ≤ (i : ℤ) ∧ (i : ℤ) < (l.length : ℤ)))]
    rfl

theorem pyDel_zero (a : Tok) (l : List Tok) : pyDel (a :: l) 0 = .ok l := by
  simp [pyDel, List.eraseIdx]

theorem pyDel_succ (a : Tok) (l : List Tok) (i : ℕ) :
    pyDel (a :: l) ((i + 1 : ℕ) : ℤ) = Res.map (fun l2 => a :: l2) (pyDel l (i : ℤ)) := by
  simp only [pyDel]
  have h1 : ¬ (((i + 1 : ℕ) : ℤ) < 0) := by omega
  have h2 : ¬ ((i : ℤ) < 0) := by omega
  rw [if_neg h1, if_neg h2]
  by_cases h : (i : ℤ) < (l.length : ℤ)
  · have ha : (0 : ℤ) ≤ ((i + 1 : ℕ) : ℤ) ∧ ((i + 1 : ℕ) : ℤ) < ((a :: l).length : ℤ) := by
      constructor
      · omega
      · simp only [List.length_cons]; push_cast; omega
    rw [if_pos ha, if_pos ⟨by omega, h⟩]
    have : ((i + 1 : ℕ) : ℤ).toNat = i + 1 := by omega
    simp only [this, Int.toNat_natCast, Res.map, List.eraseIdx]
  · have ha : ¬ ((0 : ℤ) ≤ ((i + 1 : ℕ) : ℤ) ∧ ((i + 1 : ℕ) : ℤ) < ((a :: l).length : ℤ)) := by
      simp only [List.length_cons]; push_cast; omega
    rw [if_neg ha, if_neg (by omega : ¬ ((0 : ℤ) ≤ (i : ℤ) ∧ (i : ℤ) < (l.length : ℤ)))]
    rfl

/- findOp lemmas. -/

theorem findOp_cons_pos {p : Tok → Bool} {t : Tok} (l : List Tok) (h : p t = true) :
    findOp p (t :: l) = some 0 := by
  simp [findOp, h]

theorem findOp_cons_neg {p : Tok → Bool} {t : Tok} (l : List Tok) (h : p t = false) :
    findOp p (t :: l) = (findOp p l).map (· + 1) := by
  simp [findOp, h]

theorem findOp_none {p : Tok → Bool} : ∀ {l : List Tok},
    (∀ t ∈ l, p t = false) → findOp p l = none := by
  intro l
  induction l with
  | nil => intro _; rfl
  | cons t rest ih =>
    intro h
    rw [findOp_cons_neg rest (h t (List.mem_cons_self _ _)),
      ih fun t0 ht0 => h t0 (List.mem_cons_of_mem _ ht0)]
    rfl

/- GoodToks lemmas. -/

theorem good_ne_nil {l : List Tok} (h : GoodToks l) : l ≠ [] := by
  cases h with
  | single v hv => simp
  | cons v o l hv ho hl => simp

theorem good_head_val {l : List Tok} (h : GoodToks l) :
    ∃ w tail, l = w :: tail ∧ isVal w = true := by
  cases h with
  | single v hv => exact ⟨v, [], rfl, hv⟩
  | cons v o l2 hv ho hl2 => exact ⟨v, o :: l2, rfl, hv⟩

theorem good_replace_head {w : Tok} {tail : List Tok} (h : GoodToks (w :: tail))
    {u : Tok} (hu : isVal u = true) : GoodToks (u :: tail) := by
  cases h with
  | single v hv => exact .single u hu
  | cons v o l2 hv ho hl2 => exact .cons u o l2 hu ho hl2

theorem good_findOp_mul_pos {l : List Tok} (hg : GoodToks l) {i : ℕ}
    (h : findOp isMulTok l = some i) : 1 ≤ i := by
  cases hg with
  | single v hv =>
    rw [findOp_cons_neg _ (isVal_not_mul hv)] at h
    simp [findOp] at h
  | cons v o l2 hv ho hl2 =>
    rw [findOp_cons_neg _ (isVal_not_mul hv)] at h
    cases hfo : findOp isMulTok (o :: l2) with
    | none => rw [hfo] at h; cases h
    | some j => rw [hfo] at h; simp at h; omega

/- pairsT equations. -/

theorem pairsT_head_irrel (a b : Tok) (t : List Tok) : pairsT (a :: t) = pairsT (b :: t) := rfl

theorem pairsT_single (v : Tok) : pairsT [v] = [] := rfl

theorem pairsT_cons_pair (v : Tok) (o : Symb) (w : Tok) (tail : List Tok) :
    pairsT (v :: .sym o :: w :: tail) = (o, valQ w) :: pairsT (w :: tail) := rfl

/- Res algebra. -/

theorem Res.map_map {α β γ : Type} (f : β → γ) (g : α → β) (x : Res α) :
    Res.map f (Res.map g x) = Res.map (fun a => f (g a)) x := by
  cases x <;> rfl

theorem Res.bind_map {α β γ : Type} (f : α → β) (x : Res α) (g : β → Res γ) :
    Res.bind (Res.map f x) g = Res.bind x (fun a => g (f a)) := by
  cases x <;> rfl

theorem Res.map_bind {α β γ : Type} (f : β → γ) (x : Res α) (g : α → Res β) :
    Res.map f (Res.bind x g) = Res.bind x (fun a => Res.map f (g a)) := by
  cases x <;> rfl

theorem Res.bind_ok {α β : Type} (a : α) (f : α → Res β) : Res.bind (.ok a) f = f a := rfl

theorem Res.map_ok {α β : Type} (f : α → β) (a : α) : Res.map f (.ok a) = .ok (f a) := rfl

/- Composite index lemmas. -/

theorem pyGet_shift2 (v o : Tok) (l : List Tok) (k : ℕ) :
    pyGet (v :: o :: l) ((k + 2 : ℕ) : ℤ) = pyGet l (k : ℤ) := by
  show pyGet (v :: o :: l) (((k + 1) + 1 : ℕ) : ℤ) = pyGet l (k : ℤ)
  rw [pyGet_succ v (o :: l) (k + 1), pyGet_succ o l k]

theorem pySet_shift2 (v o : Tok) (l : List Tok) (k : ℕ) (t : Tok) :
    pySet (v :: o :: l) ((k + 2 : ℕ) : ℤ) t
      = Res.map (fun l2 => v :: o :: l2) (pySet l (k : ℤ) t) := by
  show pySet (v :: o :: l) (((k + 1) + 1 : ℕ) : ℤ) t
      = Res.map (fun l2 => v :: o :: l2) (pySet l (k : ℤ) t)
  rw [pySet_succ v (o :: l) (k + 1) t, pySet_succ o l k t, Res.map_map]

theorem pyDel_shift2 (v o : Tok) (l : List Tok) (k : ℕ) :
    pyDel (v :: o :: l) ((k + 2 : ℕ) : ℤ)
      = Res.map (fun l2 => v :: o :: l2) (pyDel l (k : ℤ)) := by
  show pyDel (v :: o :: l) (((k + 1) + 1 : ℕ) : ℤ)
      = Res.map (fun l2 => v :: o :: l2) (pyDel l (k : ℤ))
  rw [pyDel_succ v (o :: l) (k + 1), pyDel_succ o l k, Res.map_map]

theorem pyFloatAt_shift2 (v o : Tok) (l : List Tok) (k : ℕ) :
    pyFloatAt (v :: o :: l) ((k + 2 : ℕ) : ℤ) = pyFloatAt l (k : ℤ) := by
  unfold pyFloatAt
  rw [pyGet_shift2]

/- Shift of one collapse past a leading value and operator pair. -/

theorem collapseWrite_shift2 (v o : Tok) (l : List Tok) (j : ℕ) (q : ℚ) :
    collapseWrite (v :: o :: l) ((j + 1) + 2) q
      = Res.map (fun l2 => v :: o :: l2) (collapseWrite l (j + 1) q) := by
  unfold collapseWrite
  rw [pySet_shift2 v o l (j + 1) (.flt q), Res.bind_map]
  cases hset : pySet l ((j + 1 : ℕ) : ℤ) (.flt q) with
  | nan => rfl
  | exn => rfl
  | ok l1 =>
    simp only [Res.bind_ok]
    have e2 : ((((j + 1) + 2 : ℕ)) : ℤ) - 1 = ((j + 2 : ℕ) : ℤ) := by push_cast; ring
    have e3 : (((j + 1 : ℕ)) : ℤ) - 1 = ((j : ℕ) : ℤ) := by push_cast; ring
    rw [e2, e3, pyDel_shift2 v o l1 j, Res.bind_map]
    cases hdel : pyDel l1 ((j : ℕ) : ℤ) with
    | nan => rfl
    | exn => rfl
    | ok l2 =>
      simp only [Res.bind_ok]
      exact pyDel_shift2 v o l2 (j + 1)

theorem mulCollapse_shift2 (v o : Tok) (l : List Tok) (j : ℕ) :
    mulCollapse (v :: o :: l) ((j + 1) + 2)
      = Res.map (fun l2 => v :: o :: l2) (mulCollapse l (j + 1)) := by
  unfold mulCollapse
  have hget : (v :: o :: l).get? ((j + 1) + 2) = l.get? (j + 1) := rfl
  rw [hget]
  have e1 : ((((j + 1) + 2 : ℕ)) : ℤ) - 1 = (((j) + 2 : ℕ) : ℤ) := by push_cast; ring
  have e2 : ((((j + 1) + 2 : ℕ)) : ℤ) + 1 = ((((j + 2)) + 2 : ℕ) : ℤ) := by push_cast; ring
  have e3 : (((j + 1 : ℕ)) : ℤ) - 1 = ((j : ℕ) : ℤ) := by push_cast; ring
  have e4 : (((j + 1 : ℕ)) : ℤ) + 1 = ((j + 2 : ℕ) : ℤ) := by push_cast; ring
  cases hl : l.get? (j + 1) with
  | none => rfl
  | some t =>
    cases t with
    | flt q => rfl
    | sym s =>
      cases s with
      | digit d => rfl
      | plus => rfl
      | minus => rfl
      | times =>
        dsimp only
        rw [e1, e2, e3, e4, pyFloatAt_shift2 v o l j, pyFloatAt_shift2 v o l (j + 2)]
        cases ha : pyFloatAt l ((j : ℕ) : ℤ) with
        | nan => rfl
        | exn => rfl
        | ok a =>
          simp only [Res.bind_ok]
          cases hb : pyFloatAt l ((j + 2 : ℕ) : ℤ) with
          | nan => rfl
          | exn => rfl
          | ok b =>
            simp only [Res.bind_ok]
            exact collapseWrite_shift2 v o l j (a * b)
      | divide =>
        dsimp only
        rw [e1, e2, e3, e4, pyFloatAt_shift2 v o l j, pyFloatAt_shift2 v o l (j + 2)]
        cases hb : pyFloatAt l ((j + 2 : ℕ) : ℤ) with
        | nan => rfl
        | exn => rfl
        | ok b =>
          simp only [Res.bind_ok]
          by_cases hb0 : b = 0
          · rw [if_pos hb0, if_pos hb0]
            rfl
          · rw [if_neg hb0, if_neg hb0]
            cases ha : pyFloatAt l ((j : ℕ) : ℤ) with
            | nan => rfl
            | exn => rfl
            | ok a =>
              simp only [Res.bind_ok]
              exact collapseWrite_shift2 v o l j (a / b)

theorem addCollapse_shift2 (v o : Tok) (l : List Tok) (j : ℕ) :
    addCollapse (v :: o :: l) ((j + 1) + 2)
      = Res.map (fun l2 => v :: o :: l2) (addCollapse l (j + 1)) := by
  unfold addCollapse
  have hget : (v :: o :: l).get? ((j + 1) + 2) = l.get? (j + 1) := rfl
  rw [hget]
  have e1 : ((((j + 1) + 2 : ℕ)) : ℤ) - 1 = (((j) + 2 : ℕ) : ℤ) := by push_cast; ring
  have e2 : ((((j + 1) + 2 : ℕ)) : ℤ) + 1 = ((((j + 2)) + 2 : ℕ) : ℤ) := by push_cast; ring
  have e3 : (((j + 1 : ℕ)) : ℤ) - 1 = ((j : ℕ) : ℤ) := by push_cast; ring
  have e4 : (((j + 1 : ℕ)) : ℤ) + 1 = ((j + 2 : ℕ) : ℤ) := by push_cast; ring
  cases hl : l.get? (j + 1) with
  | none => rfl
  | some t =>
    cases t with
    | flt q => rfl
    | sym s =>
      cases s with
      | digit d => rfl
      | times => rfl
      | divide => rfl
      | plus =>
        dsimp only
        rw [e1, e2, e3, e4, pyFloatAt_shift2 v o l j, pyFloatAt_shift2 v o l (j + 2)]
        cases ha : pyFloatAt l ((j : ℕ) : ℤ) with
        | nan => rfl
        | exn => rfl
        | ok a =>
          simp only [Res.bind_ok]
          cases hb : pyFloatAt l ((j + 2 : ℕ) : ℤ) with
          | nan => rfl
          | exn => rfl
          | ok b =>
            simp only [Res.bind_ok]
            exact collapseWrite_shift2 v o l j (a + b)
      | minus =>
        dsimp only
        rw [e1, e2, e3, e4, pyFloatAt_shift2 v o l j, pyFloatAt_shift2 v o l (j + 2)]
        cases ha : pyFloatAt l ((j : ℕ) : ℤ) with
        | nan => rfl
        | exn => rfl
        | ok a =>
          simp only [Res.bind_ok]
          cases hb : pyFloatAt l ((j + 2 : ℕ) : ℤ) with
          | nan => rfl
          | exn => rfl
          | ok b =>
            simp only [Res.bind_ok]
            exact collapseWrite_shift2 v o l j (a - b)

/- Literal index computations. -/

theorem pyGet_lit2 (a b c : Tok) (l : List Tok) : pyGet (a :: b :: c :: l) 2 = .ok c := by
  simp [pyGet]
  omega

theorem pySet_lit1 (a b : Tok) (l : List Tok) (t : Tok) :
    pySet (a :: b :: l) 1 t = .ok (a :: t :: l) := by
  simp [pySet]

theorem pyDel_lit1 (a b : Tok) (l : List Tok) : pyDel (a :: b :: l) 1 = .ok (a :: l) := by
  simp [pyDel]

theorem castE1 : ((1 : ℕ) : ℤ) - 1 = (0 : ℤ) := by norm_num

theorem castE2 : ((1 : ℕ) : ℤ) + 1 = (2 : ℤ) := by norm_num

theorem castE3 : ((1 : ℕ) : ℤ) = (1 : ℤ) := by norm_num

theorem pyFloatAt_zero (a : Tok) (l : List Tok) (ha : isVal a = true) :
    pyFloatAt (a :: l) 0 = .ok (valQ a) := by
  unfold pyFloatAt
  rw [pyGet_zero, Res.bind_ok, pyFloat_isVal ha]

theorem pyFloatAt_lit2 (a b c : Tok) (l : List Tok) (hc : isVal c = true) :
    pyFloatAt (a :: b :: c :: l) 2 = .ok (valQ c) := by
  unfold pyFloatAt
  rw [pyGet_lit2, Res.bind_ok, pyFloat_isVal hc]

theorem collapseWrite_one (v o w : Tok) (tail : List Tok) (q : ℚ) :
    collapseWrite (v :: o :: w :: tail) 1 q = .ok (.flt q :: tail) := by
  unfold collapseWrite
  rw [castE3, pySet_lit1, Res.bind_ok]
  rw [show (1 : ℤ) - 1 = (0 : ℤ) by norm_num, pyDel_zero, Res.bind_ok, pyDel_lit1]

theorem mulCollapse_one_times (v w : Tok) (tail : List Tok)
    (hv : isVal v = true) (hw : isVal w = true) :
    mulCollapse (v :: .sym .times :: w :: tail) 1
      = .ok (.flt (valQ v * valQ w) :: tail) := by
  unfold mulCollapse
  have hget : (v :: Tok.sym .times :: w :: tail).get? 1 = some (.sym .times) := rfl
  rw [hget]
  dsimp only
  rw [castE1, castE2, pyFloatAt_zero _ _ hv, pyFloatAt_lit2 _ _ _ _ hw]
  simp only [Res.bind_ok]
  exact collapseWrite_one v _ w tail _

theorem mulCollapse_one_div (v w : Tok) (tail : List Tok)
    (hv : isVal v = true) (hw : isVal w = true) :
    mulCollapse (v :: .sym .divide :: w :: tail) 1
      = if valQ w = 0 then .nan else .ok (.flt (valQ v / valQ w) :: tail) := by
  unfold mulCollapse
  have hget : (v :: Tok.sym .divide :: w :: tail).get? 1 = some (.sym .divide) := rfl
  rw [hget]
  dsimp only
  rw [castE1, castE2, pyFloatAt_zero _ _ hv, pyFloatAt_lit2 _ _ _ _ hw]
  simp only [Res.bind_ok]
  by_cases hw0 : valQ w = 0
  · rw [if_pos hw0, if_pos hw0]
  · rw [if_neg hw0, if_neg hw0]
    exact collapseWrite_one v _ w tail _

theorem addCollapse_one_plus (v w : Tok) (tail : List Tok)
    (hv : isVal v = true) (hw : isVal w = true) :
    addCollapse (v :: .sym .plus :: w :: tail) 1
      = .ok (.flt (valQ v + valQ w) :: tail) := by
  unfold addCollapse
  have hget : (v :: Tok.sym .plus :: w :: tail).get? 1 = some (.sym .plus) := rfl
  rw [hget]
  dsimp only
  rw [castE1, castE2, pyFloatAt_zero _ _ hv, pyFloatAt_lit2 _ _ _ _ hw]
  simp only [Res.bind_ok]
  exact collapseWrite_one v _ w tail _

theorem addCollapse_one_minus (v w : Tok) (tail : List Tok)
    (hv : isVal v = true) (hw : isVal w = true) :
    addCollapse (v :: .sym .minus :: w :: tail) 1
      = .ok (.flt (valQ v - valQ w) :: tail) := by
  unfold addCollapse
  have hget : (v :: Tok.sym .minus :: w :: tail).get? 1 = some (.sym .minus) := rfl
  rw [hget]
  dsimp only
  rw [castE1, castE2, pyFloatAt_zero _ _ hv, pyFloatAt_lit2 _ _ _ _ hw]
  simp only [Res.bind_ok]
  exact collapseWrite_one v _ w tail _

/-- One multiplicative collapse on a good working list: the collapse either
succeeds, preserving shape and the value of the specification-side
multiplicative phase, or the right operand of the leftmost division is
exactly zero and the collapse yields nan exactly when the specification
phase does. -/
theorem mulStep_good {l : List Tok} (hg : GoodToks l) :
    ∀ i, findOp isMulTok l = some i →
    (∃ l2, mulCollapse l i = .ok l2 ∧ GoodToks l2 ∧
       l2.length + 2 = l.length ∧
       l2.countP isMulTok + 1 = l.countP isMulTok ∧
       specMulPhase (headQ l2) (pairsT l2) = specMulPhase (headQ l) (pairsT l)) ∨
    (mulCollapse l i = .nan ∧ specMulPhase (headQ l) (pairsT l) = .nan) := by
  induction hg with
  | single v hv =>
    intro i h
    rw [findOp_cons_neg _ (isVal_not_mul hv)] at h
    simp [findOp] at h
  | cons v o tail hv ho htail ih =>
    intro i h
    rw [findOp_cons_neg _ (isVal_not_mul hv)] at h
    by_cases hom : isMulTok o
    · rw [findOp_cons_pos _ hom] at h
      simp at h
      have hi : i = 1 := by omega
      subst hi
      obtain ⟨w, tail2, rfl, hw⟩ := good_head_val htail
      rcases isMulTok_cases hom with rfl | rfl
      · left
        refine ⟨.flt (valQ v * valQ w) :: tail2, mulCollapse_one_times v w tail2 hv hw,
          good_replace_head htail rfl, by simp, ?_, rfl⟩
        have c1 : List.countP isMulTok (Tok.flt (valQ v * valQ w) :: tail2)
            = List.countP isMulTok tail2 :=
          List.countP_cons_of_neg _ _ (by simp [isMulTok])
        have c2 : List.countP isMulTok (v :: Tok.sym Symb.times :: w :: tail2)
            = List.countP isMulTok tail2 + 1 := by
          rw [List.countP_cons_of_neg _ _ (by simp [isVal_not_mul hv]),
            List.countP_cons_of_pos _ _ (by simp [isMulTok]),
            List.countP_cons_of_neg _ _ (by simp [isVal_not_mul hw])]
        rw [c1, c2]
      · by_cases hw0 : valQ w = 0
        · right
          refine ⟨by rw [mulCollapse_one_div v w tail2 hv hw, if_pos hw0], ?_⟩
          show specMulPhase (valQ v) ((Symb.divide, valQ w) :: pairsT (w :: tail2)) = .nan
          simp only [specMulPhase, if_pos hw0]
        · left
          refine ⟨.flt (valQ v / valQ w) :: tail2,
            by rw [mulCollapse_one_div v w tail2 hv hw, if_neg hw0],
            good_replace_head htail rfl, by simp, ?_, ?_⟩
          · have c1 : List.countP isMulTok (Tok.flt (valQ v / valQ w) :: tail2)
                = List.countP isMulTok tail2 :=
              List.countP_cons_of_neg _ _ (by simp [isMulTok])
            have c2 : List.countP isMulTok (v :: Tok.sym Symb.divide :: w :: tail2)
                = List.countP isMulTok tail2 + 1 := by
              rw [List.countP_cons_of_neg _ _ (by simp [isVal_not_mul hv]),
                List.countP_cons_of_pos _ _ (by simp [isMulTok]),
                List.countP_cons_of_neg _ _ (by simp [isVal_not_mul hw])]
            rw [c1, c2]
          · show specMulPhase (valQ v / valQ w) (pairsT (w :: tail2))
              = specMulPhase (valQ v) ((Symb.divide, valQ w) :: pairsT (w :: tail2))
            simp only [specMulPhase, if_neg hw0]
    · have homf : isMulTok o = false := by simpa using hom
      have hoa : isAddTok o = true := by
        rcases ho with h1 | h1
        · rw [h1] at homf; cases homf
        · exact h1
      rw [findOp_cons_neg _ homf] at h
      cases hfo : findOp isMulTok tail with
      | none => rw [hfo] at h; simp at h
      | some i2 =>
        rw [hfo] at h
        simp at h
        have hi2 : 1 ≤ i2 := good_findOp_mul_pos htail hfo
        obtain ⟨j, rfl⟩ : ∃ j, i2 = j + 1 := ⟨i2 - 1, by omega⟩
        have hi : i = (j + 1) + 2 := by omega
        subst hi
        rw [mulCollapse_shift2 v o tail j]
        obtain ⟨w, t2, rfl, hw⟩ := good_head_val htail
        rcases isAddTok_cases hoa with rfl | rfl
        · rcases ih _ hfo with ⟨l2, hc, hg2, hlen, hcnt, hspec⟩ | ⟨hc, hspec⟩
          · left
            obtain ⟨w2, t3, rfl, hw2⟩ := good_head_val hg2
            refine ⟨v :: .sym .plus :: w2 :: t3, by rw [hc]; rfl,
              .cons v _ _ hv ho hg2, ?_, ?_, ?_⟩
            · simp only [List.length_cons] at hlen ⊢; omega
            · have c1 : List.countP isMulTok (v :: Tok.sym Symb.plus :: w2 :: t3)
                  = List.countP isMulTok (w2 :: t3) := by
                rw [List.countP_cons_of_neg _ _ (by simp [isVal_not_mul hv]),
                  List.countP_cons_of_neg _ _ (by simp [isMulTok])]
              have c2 : List.countP isMulTok (v :: Tok.sym Symb.plus :: w :: t2)
                  = List.countP isMulTok (w :: t2) := by
                rw [List.countP_cons_of_neg _ _ (by simp [isVal_not_mul hv]),
                  List.countP_cons_of_neg _ _ (by simp [isMulTok])]
              rw [c1, c2]
              exact hcnt
            · show Res.map (fun y => (valQ v, (Symb.plus, y.1) :: y.2))
                  (specMulPhase (valQ w2) (pairsT (w2 :: t3)))
                = Res.map (fun y => (valQ v, (Symb.plus, y.1) :: y.2))
                  (specMulPhase (valQ w) (pairsT (w :: t2)))
              have hspec2 : specMulPhase (valQ w2) (pairsT (w2 :: t3))
                  = specMulPhase (valQ w) (pairsT (w :: t2)) := hspec
              rw [hspec2]
          · right
            refine ⟨by rw [hc]; rfl, ?_⟩
            show Res.map (fun y => (valQ v, (Symb.plus, y.1) :: y.2))
                (specMulPhase (valQ w) (pairsT (w :: t2))) = .nan
            have hspec2 : specMulPhase (valQ w) (pairsT (w :: t2)) = .nan := hspec
            rw [hspec2]
            rfl
        · rcases ih _ hfo with ⟨l2, hc, hg2, hlen, hcnt, hspec⟩ | ⟨hc, hspec⟩
          · left
            obtain ⟨w2, t3, rfl, hw2⟩ := good_head_val hg2
            refine ⟨v :: .sym .minus :: w2 :: t3, by rw [hc]; rfl,
              .cons v _ _ hv ho hg2, ?_, ?_, ?_⟩
            · simp only [List.length_cons] at hlen ⊢; omega
            · have c1 : List.countP isMulTok (v :: Tok.sym Symb.minus :: w2 :: t3)
                  = List.countP isMulTok (w2 :: t3) := by
                rw [List.countP_cons_of_neg _ _ (by simp [isVal_not_mul hv]),
                  List.countP_cons_of_neg _ _ (by simp [isMulTok])]
              have c2 : List.countP isMulTok (v :: Tok.sym Symb.minus :: w :: t2)
                  = List.countP isMulTok (w :: t2) := by
                rw [List.countP_cons_of_neg _ _ (by simp [isVal_not_mul hv]),
                  List.countP_cons_of_neg _ _ (by simp [isMulTok])]
              rw [c1, c2]
              exact hcnt
            · show Res.map (fun y => (valQ v, (Symb.minus, y.1) :: y.2))
                  (specMulPhase (valQ w2) (pairsT (w2 :: t3)))
                = Res.map (fun y => (valQ v, (Symb.minus, y.1) :: y.2))
                  (specMulPhase (valQ w) (pairsT (w :: t2)))
              have hspec2 : specMulPhase (valQ w2) (pairsT (w2 :: t3))
                  = specMulPhase (valQ w) (pairsT (w :: t2)) := hspec
              rw [hspec2]
          · right
            refine ⟨by rw [hc]; rfl, ?_⟩
            show Res.map (fun y => (valQ v, (Symb.minus, y.1) :: y.2))
                (specMulPhase (valQ w) (pairsT (w :: t2))) = .nan
            have hspec2 : specMulPhase (valQ w) (pairsT (w :: t2)) = .nan := hspec
            rw [hspec2]
            rfl

theorem mulLoopFuel_none {l : List Tok} (fuel : ℕ) (h : findOp isMulTok l = none) :
    mulLoopFuel fuel l = .ok l := by
  cases fuel with
  | zero => simp only [mulLoopFuel, h]
  | succ f => simp only [mulLoopFuel, h]

theorem mulLoopFuel_step_ok {l next : List Tok} {i : ℕ} (f : ℕ)
    (h : findOp isMulTok l = some i) (hc : mulCollapse l i = .ok next) :
    mulLoopFuel (f + 1) l = mulLoopFuel f next := by
  simp only [mulLoopFuel, h, hc]

theorem mulLoopFuel_step_nan {l : List Tok} {i : ℕ} (f : ℕ)
    (h : findOp isMulTok l = some i) (hc : mulCollapse l i = .nan) :
    mulLoopFuel (f + 1) l = .nan := by
  simp only [mulLoopFuel, h, hc]

theorem specMulPhase_nomul (x : ℚ) :
    ∀ ps : List (Symb × ℚ), (∀ q ∈ ps, q.1 ≠ Symb.times ∧ q.1 ≠ Symb.divide) →
      specMulPhase x ps = .ok (x, ps) := by
  intro ps
  induction ps generalizing x with
  | nil => intro _; rfl
  | cons q rest ih =>
    intro h
    obtain ⟨o, b⟩ := q
    have ho := h (o, b) (List.mem_cons_self _ _)
    have hrest := fun q hq => h q (List.mem_cons_of_mem _ hq)
    cases o with
    | times => exact absurd rfl ho.1
    | divide => exact absurd rfl ho.2
    | digit d =>
      show Res.map (fun y => (x, (Symb.digit d, y.1) :: y.2)) (specMulPhase b rest)
          = .ok (x, (Symb.digit d, b) :: rest)
      rw [ih b hrest]
      rfl
    | plus =>
      show Res.map (fun y => (x, (Symb.plus, y.1) :: y.2)) (specMulPhase b rest)
          = .ok (x, (Symb.plus, b) :: rest)
      rw [ih b hrest]
      rfl
    | minus =>
      show Res.map (fun y => (x, (Symb.minus, y.1) :: y.2)) (specMulPhase b rest)
          = .ok (x, (Symb.minus, b) :: rest)
      rw [ih b hrest]
      rfl

theorem pairsTA_nomul : ∀ (n : ℕ) (l : List Tok), l.length ≤ n →
    (∀ t ∈ l, isMulTok t = false) →
    ∀ q ∈ pairsTA l, q.1 ≠ Symb.times ∧ q.1 ≠ Symb.divide := by
  intro n
  induction n with
  | zero =>
    intro l hl h q hq
    cases l with
    | nil => simp [pairsTA] at hq
    | cons t rest => simp at hl
  | succ n ih =>
    intro l hl h q hq
    cases l with
    | nil => simp [pairsTA] at hq
    | cons t rest =>
      cases t with
      | flt qq => simp [pairsTA] at hq
      | sym o =>
        cases rest with
        | nil => simp [pairsTA] at hq
        | cons v rest2 =>
          rw [show pairsTA (Tok.sym o :: v :: rest2) = (o, valQ v) :: pairsTA rest2 from rfl] at hq
          rcases List.mem_cons.1 hq with rfl | hq2
          · have hmo := h _ (List.mem_cons_self _ _)
            constructor
            · intro hcontra
              rw [show (o, valQ v).1 = o from rfl] at hcontra
              subst hcontra
              simp [isMulTok] at hmo
            · intro hcontra
              rw [show (o, valQ v).1 = o from rfl] at hcontra
              subst hcontra
              simp [isMulTok] at hmo
          · refine ih rest2 ?_ ?_ q hq2
            · simp only [List.length_cons] at hl; omega
            · intro t ht
              exact h t (List.mem_cons_of_mem _ (List.mem_cons_of_mem _ ht))

theorem pairsT_nomul {l : List Tok} (h : ∀ t ∈ l, isMulTok t = false) :
    ∀ q ∈ pairsT l, q.1 ≠ Symb.times ∧ q.1 ≠ Symb.divide := by
  cases l with
  | nil => intro q hq; simp [pairsT] at hq
  | cons t rest =>
    intro q hq
    rw [show pairsT (t :: rest) = pairsTA rest from rfl] at hq
    exact pairsTA_nomul rest.length rest (le_refl _)
      (fun t0 ht0 => h t0 (List.mem_cons_of_mem _ ht0)) q hq

theorem findOp_eq_none {p : Tok → Bool} : ∀ {l : List Tok},
    findOp p l = none → ∀ t ∈ l, p t = false := by
  intro l
  induction l with
  | nil => intro _ t ht; simp at ht
  | cons a rest ih =>
    intro h t ht
    by_cases hpa : p a
    · rw [findOp_cons_pos _ hpa] at h; cases h
    · rw [findOp_cons_neg _ (by simpa using hpa)] at h
      rcases List.mem_cons.1 ht with rfl | ht2
      · simpa using hpa
      · cases hfr : findOp p rest with
        | none => exact ih hfr t ht2
        | some j => rw [hfr] at h; cases h

theorem findOp_some_exists {p : Tok → Bool} : ∀ {l : List Tok} {i : ℕ},
    findOp p l = some i → ∃ t ∈ l, p t = true := by
  intro l
  induction l with
  | nil => intro i h; cases h
  | cons a rest ih =>
    intro i h
    by_cases hpa : p a
    · exact ⟨a, List.mem_cons_self _ _, hpa⟩
    · rw [findOp_cons_neg _ (by simpa using hpa)] at h
      cases hfr : findOp p rest with
      | none => rw [hfr] at h; cases h
      | some j =>
        obtain ⟨t, ht, hpt⟩ := ih hfr
        exact ⟨t, List.mem_cons_of_mem _ ht, hpt⟩

/-- The first while loop of _evaluate agrees with the specification-side
multiplicative phase on every good working list, given fuel at least the
number of multiplicative operators. -/
theorem mulLoopFuel_good : ∀ (bound : ℕ) (l : List Tok) (fuel : ℕ), GoodToks l →
    l.countP isMulTok ≤ bound → l.countP isMulTok ≤ fuel →
    (specMulPhase (headQ l) (pairsT l) = .nan → mulLoopFuel fuel l = .nan) ∧
    (∀ x ps, specMulPhase (headQ l) (pairsT l) = .ok (x, ps) →
      ∃ l2, mulLoopFuel fuel l = .ok l2 ∧ GoodToks l2 ∧
        (∀ t ∈ l2, isMulTok t = false) ∧ headQ l2 = x ∧ pairsT l2 = ps) := by
  intro bound
  induction bound with
  | zero =>
    intro l fuel hg hcb hcf
    have hnm : ∀ t ∈ l, isMulTok t = false := by
      intro t ht
      by_contra hc
      have hpos : 0 < l.countP isMulTok := by
        rw [List.countP_pos]
        exact ⟨t, ht, by simpa using hc⟩
      omega
    have hfind : findOp isMulTok l = none := findOp_none hnm
    have hok := specMulPhase_nomul (headQ l) (pairsT l) (pairsT_nomul hnm)
    constructor
    · intro hspec
      rw [hok] at hspec
      cases hspec
    · intro x ps hspec
      rw [hok] at hspec
      injection hspec with hxy
      injection hxy with hx hps
      exact ⟨l, mulLoopFuel_none fuel hfind, hg, hnm, hx, hps⟩
  | succ b ih =>
    intro l fuel hg hcb hcf
    cases hfind : findOp isMulTok l with
    | none =>
      have hnm : ∀ t ∈ l, isMulTok t = false := findOp_eq_none hfind
      have hok := specMulPhase_nomul (headQ l) (pairsT l) (pairsT_nomul hnm)
      constructor
      · intro hspec
        rw [hok] at hspec
        cases hspec
      · intro x ps hspec
        rw [hok] at hspec
        injection hspec with hxy
        injection hxy with hx hps
        exact ⟨l, mulLoopFuel_none fuel hfind, hg, hnm, hx, hps⟩
    | some i =>
      have hpos : 0 < l.countP isMulTok := by
        rw [List.countP_pos]
        exact findOp_some_exists hfind
      cases fuel with
      | zero => omega
      | succ f =>
        rcases mulStep_good hg i hfind with
          ⟨l2, hc, hg2, hlen, hcnt, hspec⟩ | ⟨hc, hspecnan⟩
        · rw [mulLoopFuel_step_ok f hfind hc]
          have ih2 := ih l2 f hg2 (by omega) (by omega)
          constructor
          · intro hspec0
            rw [← hspec] at hspec0
            exact ih2.1 hspec0
          · intro x ps hspec0
            rw [← hspec] at hspec0
            exact ih2.2 x ps hspec0
        · rw [mulLoopFuel_step_nan f hfind hc]
          constructor
          · intro _; rfl
          · intro x ps hspec0
            rw [hspecnan] at hspec0
            cases hspec0

theorem addLoopFuel_none {l : List Tok} (fuel : ℕ) (h : findOp isAddTok l = none) :
    addLoopFuel fuel l = .ok l := by
  cases fuel with
  | zero => simp only [addLoopFuel, h]
  | succ f => simp only [addLoopFuel, h]

theorem addLoopFuel_step_ok {l next : List Tok} {i : ℕ} (f : ℕ)
    (h : findOp isAddTok l = some i) (hc : addCollapse l i = .ok next) :
    addLoopFuel (f + 1) l = addLoopFuel f next := by
  simp only [addLoopFuel, h, hc]

/-- One additive collapse on a good, multiplication-free working list:
always at index 1, always successful, preserving shape and the value of
the specification-side additive phase. -/
theorem addStep_good {l : List Tok} (hg : GoodToks l)
    (hnm : ∀ t ∈ l, isMulTok t = false) :
    ∀ i, findOp isAddTok l = some i →
    ∃ l2, addCollapse l i = .ok l2 ∧ GoodToks l2 ∧
      (∀ t ∈ l2, isMulTok t = false) ∧
      l2.length + 2 = l.length ∧
      l2.countP isAddTok + 1 = l.countP isAddTok ∧
      specAddPhase (headQ l2) (pairsT l2) = specAddPhase (headQ l) (pairsT l) := by
  cases hg with
  | single v hv =>
    intro i h
    rw [findOp_cons_neg _ (isVal_not_add hv)] at h
    simp [findOp] at h
  | cons v o tail hv ho htail =>
    intro i h
    have hoa : isAddTok o = true := by
      rcases ho with h1 | h1
      · have := hnm o (List.mem_cons_of_mem _ (List.mem_cons_self _ _))
        rw [h1] at this; cases this
      · exact h1
    rw [findOp_cons_neg _ (isVal_not_add hv), findOp_cons_pos _ hoa] at h
    simp at h
    have hi : i = 1 := by omega
    subst hi
    obtain ⟨w, tail2, rfl, hw⟩ := good_head_val htail
    have htl : ∀ t ∈ tail2, isMulTok t = false := by
      intro t ht
      exact hnm t (List.mem_cons_of_mem _ (List.mem_cons_of_mem _ (List.mem_cons_of_mem _ ht)))
    rcases isAddTok_cases hoa with rfl | rfl
    · refine ⟨.flt (valQ v + valQ w) :: tail2, addCollapse_one_plus v w tail2 hv hw,
        good_replace_head htail rfl, ?_, by simp, ?_, rfl⟩
      · intro t ht
        rcases List.mem_cons.1 ht with rfl | ht2
        · rfl
        · exact htl t ht2
      · have c1 : List.countP isAddTok (Tok.flt (valQ v + valQ w) :: tail2)
            = List.countP isAddTok tail2 :=
          List.countP_cons_of_neg _ _ (by simp [isAddTok])
        have c2 : List.countP isAddTok (v :: Tok.sym Symb.plus :: w :: tail2)
            = List.countP isAddTok tail2 + 1 := by
          rw [List.countP_cons_of_neg _ _ (by simp [isVal_not_add hv]),
            List.countP_cons_of_pos _ _ (by simp [isAddTok]),
            List.countP_cons_of_neg _ _ (by simp [isVal_not_add hw])]
        rw [c1, c2]
    · refine ⟨.flt (valQ v - valQ w) :: tail2, addCollapse_one_minus v w tail2 hv hw,
        good_replace_head htail rfl, ?_, by simp, ?_, rfl⟩
      · intro t ht
        rcases List.mem_cons.1 ht with rfl | ht2
        · rfl
        · exact htl t ht2
      · have c1 : List.countP isAddTok (Tok.flt (valQ v - valQ w) :: tail2)
            = List.countP isAddTok tail2 :=
          List.countP_cons_of_neg _ _ (by simp [isAddTok])
        have c2 : List.countP isAddTok (v :: Tok.sym Symb.minus :: w :: tail2)
            = List.countP isAddTok tail2 + 1 := by
          rw [List.countP_cons_of_neg _ _ (by simp [isVal_not_add hv]),
            List.countP_cons_of_pos _ _ (by simp [isAddTok]),
            List.countP_cons_of_neg _ _ (by simp [isVal_not_add hw])]
        rw [c1, c2]

/-- The second while loop of _evaluate fully collapses a good,
multiplication-free working list to a single value whose numeric reading
is the one computed by the specification-side additive phase. -/
theorem addLoopFuel_good : ∀ (bound : ℕ) (l : List Tok) (fuel : ℕ), GoodToks l →
    (∀ t ∈ l, isMulTok t = false) →
    l.countP isAddTok ≤ bound → l.countP isAddTok ≤ fuel →
    ∃ v, addLoopFuel fuel l = .ok [v] ∧ isVal v = true ∧
      specAddPhase (headQ l) (pairsT l) = .ok (valQ v) := by
  intro bound
  induction bound with
  | zero =>
    intro l fuel hg hnm hcb hcf
    have hna : ∀ t ∈ l, isAddTok t = false := by
      intro t ht
      by_contra hc
      have hpos : 0 < l.countP isAddTok := by
        rw [List.countP_pos]
        exact ⟨t, ht, by simpa using hc⟩
      omega
    cases hg with
    | single v hv =>
      exact ⟨v, addLoopFuel_none fuel (findOp_none (by
        intro t ht
        rcases List.mem_cons.1 ht with rfl | ht2
        · exact isVal_not_add hv
        · simp at ht2)), hv, rfl⟩
    | cons v o tail hv ho htail =>
      exfalso
      rcases ho with h1 | h1
      · have := hnm o (List.mem_cons_of_mem _ (List.mem_cons_self _ _))
        rw [h1] at this; cases this
      · have := hna o (List.mem_cons_of_mem _ (List.mem_cons_self _ _))
        rw [h1] at this; cases this
  | succ b ih =>
    intro l fuel hg hnm hcb hcf
    cases hfind : findOp isAddTok l with
    | none =>
      have hna : ∀ t ∈ l, isAddTok t = false := findOp_eq_none hfind
      cases hg with
      | single v hv => exact ⟨v, addLoopFuel_none fuel hfind, hv, rfl⟩
      | cons v o tail hv ho htail =>
        exfalso
        rcases ho with h1 | h1
        · have := hnm o (List.mem_cons_of_mem _ (List.mem_cons_self _ _))
          rw [h1] at this; cases this
        · have := hna o (List.mem_cons_of_mem _ (List.mem_cons_self _ _))
          rw [h1] at this; cases this
    | some i =>
      have hpos : 0 < l.countP isAddTok := by
        rw [List.countP_pos]
        exact findOp_some_exists hfind
      cases fuel with
      | zero => omega
      | succ f =>
        obtain ⟨l2, hc, hg2, hnm2, hlen, hcnt, hspec⟩ := addStep_good hg hnm i hfind
        rw [addLoopFuel_step_ok f hfind hc]
        obtain ⟨v, hv1, hv2, hv3⟩ := ih l2 f hg2 hnm2 (by omega) (by omega)
        exact ⟨v, hv1, hv2, by rw [← hspec]; exact hv3⟩

theorem specMulPhase_ne_exn (x : ℚ) : ∀ ps : List (Symb × ℚ), specMulPhase x ps ≠ .exn := by
  intro ps
  induction ps generalizing x with
  | nil => intro h; cases h
  | cons q rest ih =>
    obtain ⟨o, b⟩ := q
    cases o with
    | times => exact fun h => ih (x * b) h
    | divide =>
      intro h
      rw [show specMulPhase x ((Symb.divide, b) :: rest)
          = if b = 0 then .nan else specMulPhase (x / b) rest from rfl] at h
      by_cases hb : b = 0
      · rw [if_pos hb] at h; cases h
      · rw [if_neg hb] at h; exact ih (x / b) h
    | digit d =>
      intro h
      rw [show specMulPhase x ((Symb.digit d, b) :: rest)
          = Res.map (fun y => (x, (Symb.digit d, y.1) :: y.2)) (specMulPhase b rest) from rfl] at h
      cases hin : specMulPhase b rest with
      | exn => exact ih b hin
      | ok y => rw [hin] at h; cases h
      | nan => rw [hin] at h; cases h
    | plus =>
      intro h
      rw [show specMulPhase x ((Symb.plus, b) :: rest)
          = Res.map (fun y => (x, (Symb.plus, y.1) :: y.2)) (specMulPhase b rest) from rfl] at h
      cases hin : specMulPhase b rest with
      | exn => exact ih b hin
      | ok y => rw [hin] at h; cases h
      | nan => rw [hin] at h; cases h
    | minus =>
      intro h
      rw [show specMulPhase x ((Symb.minus, b) :: rest)
          = Res.map (fun y => (x, (Symb.minus, y.1) :: y.2)) (specMulPhase b rest) from rfl] at h
      cases hin : specMulPhase b rest with
      | exn => exact ih b hin
      | ok y => rw [hin] at h; cases h
      | nan => rw [hin] at h; cases h

theorem wf_good {l : List Symb} (h : WFTokens l) : GoodToks (l.map Tok.sym) := by
  induction h with
  | single d => exact .single _ rfl
  | cons d o rest ho hrest ih =>
    refine .cons _ _ _ rfl ?_ ih
    cases o with
    | digit d2 => simp [isDigitSym] at ho
    | plus => exact Or.inr rfl
    | minus => exact Or.inr rfl
    | times => exact Or.inl rfl
    | divide => exact Or.inl rfl

theorem headQ_map (l : List Symb) : headQ (l.map Tok.sym) = headD l := by
  cases l with
  | nil => rfl
  | cons s rest => cases s <;> rfl

theorem pairsTA_map : ∀ (n : ℕ) (l : List Symb), l.length ≤ n →
    pairsTA (l.map Tok.sym) = pairsDA l := by
  intro n
  induction n with
  | zero =>
    intro l hl
    cases l with
    | nil => rfl
    | cons s rest => simp at hl
  | succ n ih =>
    intro l hl
    cases l with
    | nil => rfl
    | cons o rest =>
      cases rest with
      | nil => cases o <;> rfl
      | cons v rest2 =>
        show (o, valQ (Tok.sym v)) :: pairsTA (rest2.map Tok.sym)
            = (o, symQ v) :: pairsDA rest2
        rw [ih rest2 (by simp at hl ⊢; omega)]
        cases v <;> rfl

theorem pairsT_map (l : List Symb) : pairsT (l.map Tok.sym) = pairsD l := by
  cases l with
  | nil => rfl
  | cons s rest =>
    show pairsTA (rest.map Tok.sym) = pairsDA rest
    exact pairsTA_map rest.length rest (le_refl _)

/-- On a well-formed token sequence, _evaluate returns either the nan
sentinel or a float, and in each case it agrees with the two-phase
specification evaluator. -/
theorem pyEvaluate_wf (l : List Symb) (h : WFTokens l) :
    (pyEvaluate l = .nan ∧ specEvaluate l = .nan) ∨
    (∃ q, pyEvaluate l = .ok (.flt q) ∧ specEvaluate l = .ok q) := by
  have hg := wf_good h
  have hq := headQ_map l
  have hp := pairsT_map l
  have hm := mulLoopFuel_good ((l.map Tok.sym).countP isMulTok) (l.map Tok.sym)
      (l.map Tok.sym).length hg (le_refl _) (List.countP_le_length _)
  cases hspec : specMulPhase (headD l) (pairsD l) with
  | exn => exact absurd hspec (specMulPhase_ne_exn _ _)
  | nan =>
    left
    have h1 : mulLoopFuel (l.map Tok.sym).length (l.map Tok.sym) = .nan :=
      hm.1 (by rw [hq, hp]; exact hspec)
    constructor
    · show Res.bind (mulLoop (l.map Tok.sym)) _ = .nan
      unfold mulLoop
      rw [h1]
      rfl
    · unfold specEvaluate
      rw [hspec]
  | ok y =>
    obtain ⟨x, ps⟩ := y
    obtain ⟨l2, h1, hg2, hnm2, hhead, hpairs⟩ := hm.2 x ps (by rw [hq, hp]; exact hspec)
    obtain ⟨v, h2, hval, h3⟩ := addLoopFuel_good (l2.countP isAddTok) l2 l2.length hg2 hnm2
      (le_refl _) (List.countP_le_length _)
    right
    refine ⟨valQ v, ?_, ?_⟩
    · show Res.bind (mulLoop (l.map Tok.sym)) _ = _
      unfold mulLoop addLoop
      rw [h1, Res.bind_ok, h2, Res.bind_ok]
      simp only [List.length_cons, List.length_nil, if_pos]
      rw [pyGet_zero, Res.bind_ok, pyFloat_isVal hval]
      rfl
    · unfold specEvaluate
      rw [hspec]
      rw [← hhead, ← hpairs]
      exact h3

/-- The evaluator of the code agrees with the specification evaluator on
every well-formed token sequence. -/
theorem pyEvaluate_eq_spec (l : List Symb) (h : WFTokens l) :
    pyEvaluate l = Res.map Tok.flt (specEvaluate l) := by
  rcases pyEvaluate_wf l h with ⟨h1, h2⟩ | ⟨q, h1, h2⟩
  · rw [h1, h2]; rfl
  · rw [h1, h2]; rfl

theorem pairsD_decomp : ∀ {l : List Symb}, WFTokens l → ∀ (pre post : List Symb),
    l = pre ++ Symb.divide :: Symb.digit 0 :: post →
    (∀ s ∈ pre, s ≠ Symb.times ∧ s ≠ Symb.divide) →
    ∃ qs rest, pairsD l = qs ++ (Symb.divide, (0 : ℚ)) :: rest ∧
      ∀ q ∈ qs, q.1 ≠ Symb.times ∧ q.1 ≠ Symb.divide := by
  intro l hwf
  induction hwf with
  | single d =>
    intro pre post heq hpre
    exfalso
    have hmem : Symb.divide ∈ [Symb.digit d] := by rw [heq]; simp
    simp at hmem
  | cons d o tail ho htail ih =>
    intro pre post heq hpre
    cases pre with
    | nil =>
      rw [List.nil_append] at heq
      injection heq with h1 h2
      simp at h1
    | cons p1 pre2 =>
      rw [List.cons_append] at heq
      injection heq with h1 h2
      cases pre2 with
      | nil =>
        rw [List.nil_append] at h2
        injection h2 with h3 h4
        subst h3
        refine ⟨[], pairsDA post, ?_, by simp⟩
        subst h4
        show (Symb.divide, symQ (Symb.digit 0)) :: pairsDA post
            = [] ++ (Symb.divide, (0 : ℚ)) :: pairsDA post
        norm_num [symQ]
      | cons p2 pre3 =>
        rw [List.cons_append] at h2
        injection h2 with h3 h4
        obtain ⟨d2, tail2, htl⟩ : ∃ d2 tail2, tail = Symb.digit d2 :: tail2 := by
          cases htail with
          | single d2 => exact ⟨d2, [], rfl⟩
          | cons d2 o2 r ho2 hr => exact ⟨d2, o2 :: r, rfl⟩
        obtain ⟨qs, rest, hps, hqs⟩ := ih pre3 post h4
          (fun s hs => hpre s (List.mem_cons_of_mem _ (List.mem_cons_of_mem _ hs)))
        refine ⟨(o, symQ (Symb.digit d2)) :: qs, rest, ?_, ?_⟩
        · show pairsDA (o :: tail) = ((o, symQ (Symb.digit d2)) :: qs)
              ++ (Symb.divide, (0 : ℚ)) :: rest
          rw [htl]
          show (o, symQ (Symb.digit d2)) :: pairsDA tail2
              = (o, symQ (Symb.digit d2)) :: (qs ++ (Symb.divide, (0 : ℚ)) :: rest)
          have h6 : pairsD tail = pairsDA tail2 := by rw [htl]; rfl
          rw [← h6, hps]
        · intro q hq
          rcases List.mem_cons.1 hq with rfl | hq2
          · have hp2 : p2 ∈ p1 :: p2 :: pre3 :=
              List.mem_cons_of_mem _ (List.mem_cons_self _ _)
            have := hpre p2 hp2
            exact ⟨by rw [show (o, symQ (Symb.digit d2)).1 = o from rfl, h3]; exact this.1,
              by rw [show (o, symQ (Symb.digit d2)).1 = o from rfl, h3]; exact this.2⟩
          · exact hqs q hq2

theorem specMulPhase_div0 (x : ℚ) : ∀ (qs rest : List (Symb × ℚ)),
    (∀ q ∈ qs, q.1 ≠ Symb.times ∧ q.1 ≠ Symb.divide) →
    specMulPhase x (qs ++ (Symb.divide, (0 : ℚ)) :: rest) = .nan := by
  intro qs
  induction qs generalizing x with
  | nil =>
    intro rest _
    show (if (0 : ℚ) = 0 then Res.nan else specMulPhase (x / 0) rest) = .nan
    rw [if_pos rfl]
  | cons q qs2 ih =>
    intro rest h
    obtain ⟨o, b⟩ := q
    have ho := h (o, b) (List.mem_cons_self _ _)
    cases o with
    | times => exact absurd rfl ho.1
    | divide => exact absurd rfl ho.2
    | digit d =>
      show Res.map (fun y => (x, (Symb.digit d, y.1) :: y.2))
          (specMulPhase b (qs2 ++ (Symb.divide, (0 : ℚ)) :: rest)) = .nan
      rw [ih b rest (fun q hq => h q (List.mem_cons_of_mem _ hq))]
      rfl
    | plus =>
      show Res.map (fun y => (x, (Symb.plus, y.1) :: y.2))
          (specMulPhase b (qs2 ++ (Symb.divide, (0 : ℚ)) :: rest)) = .nan
      rw [ih b rest (fun q hq => h q (List.mem_cons_of_mem _ hq))]
      rfl
    | minus =>
      show Res.map (fun y => (x, (Symb.minus, y.1) :: y.2))
          (specMulPhase b (qs2 ++ (Symb.divide, (0 : ℚ)) :: rest)) = .nan
      rw [ih b rest (fun q hq => h q (List.mem_cons_of_mem _ hq))]
      rfl

/-- C1: on every well-formed token sequence the evaluator of the code
equals the reference evaluator that resolves all multiplicative operators
before any additive one, strictly left to right within each tier; in
particular 2 + 3 * 4 evaluates to 14.0. -/
theorem evaluate_precedence :
    (∀ l, WFTokens l → pyEvaluate l = Res.map Tok.flt (specEvaluate l)) ∧
    pyEvaluate [.digit 2, .plus, .digit 3, .times, .digit 4] = .ok (.flt 14) := by
  constructor
  · exact pyEvaluate_eq_spec
  · rw [pyEvaluate_eq_spec _ (.cons 2 .plus _ rfl (.cons 3 .times _ rfl (.single 4)))]
    simp only [specEvaluate, specMulPhase, specAddPhase, headD, pairsD, pairsDA, symQ, Res.map]
    have e3 : ((3 : Fin 10) : ℕ) = 3 := rfl
    have e4 : ((4 : Fin 10) : ℕ) = 4 := rfl
    norm_num [e3, e4]

/-- Closed witness for the C1 theorem on the sequence 8 / 2 + 1. -/
theorem evaluate_precedence_witness :
    pyEvaluate [.digit 8, .divide, .digit 2, .plus, .digit 1]
      = Res.map Tok.flt (specEvaluate [.digit 8, .divide, .digit 2, .plus, .digit 1]) :=
  evaluate_precedence.1 _ (.cons 8 .divide _ rfl (.cons 2 .plus _ rfl (.single 1)))

/-- C4: on a well-formed token sequence whose first multiplicative
operator is a division with right operand the digit zero, evaluation
returns the invalid nan sentinel immediately. -/
theorem evaluate_div_zero (l pre post : List Symb)
    (heq : l = pre ++ Symb.divide :: Symb.digit 0 :: post)
    (hwf : WFTokens l)
    (hpre : ∀ s ∈ pre, s ≠ Symb.times ∧ s ≠ Symb.divide) :
    pyEvaluate l = .nan := by
  obtain ⟨qs, rest, hps, hqs⟩ := pairsD_decomp hwf pre post heq hpre
  have hnan : specEvaluate l = .nan := by
    unfold specEvaluate
    rw [hps, specMulPhase_div0 (headD l) qs rest hqs]
  rw [pyEvaluate_eq_spec l hwf, hnan]
  rfl

/-- Closed witness for the C4 theorem: 1 / 0 is invalid. -/
theorem evaluate_div_zero_witness :
    pyEvaluate [.digit 1, .divide, .digit 0] = .nan :=
  evaluate_div_zero _ [Symb.digit 1] [] rfl
    (.cons 1 .divide _ rfl (.single 0)) (by decide)

/-- C2 as stated is false on the code: on the empty token sequence fitness
does not return the nan marker, it raises an uncaught IndexError, because
the nan membership test on the empty list is false and _evaluate then
reads output[0] of an empty list. -/
theorem fitness_empty_cex :
    pyFitness [] 5 = .exn ∧ pyFitness [] (5 : ℚ) ≠ .nan :=
  ⟨rfl, by decide⟩

/-- C2 amended: on the empty sequence fitness raises an IndexError rather
than returning the invalid marker; on every well-formed non-empty sequence
fitness is nan exactly when evaluation is invalid and otherwise equals the
non-negative distance between the target and the evaluated value. -/
theorem fitness_spec (l : List Symb) (t : ℚ) :
    (l = [] → pyFitness l t = .exn) ∧
    (WFTokens l →
      (pyEvaluate l = .nan ∧ pyFitness l t = .nan) ∨
      (∃ q, pyEvaluate l = .ok (.flt q) ∧ pyFitness l t = .ok |t - q| ∧ 0 ≤ |t - q|)) := by
  constructor
  · intro h; subst h; rfl
  · intro hwf
    rcases pyEvaluate_wf l hwf with ⟨h1, _⟩ | ⟨q, h1, _⟩
    · left
      refine ⟨h1, ?_⟩
      unfold pyFitness
      rw [h1]
    · right
      refine ⟨q, h1, ?_, abs_nonneg _⟩
      unfold pyFitness
      rw [h1]

/-- Closed witness for the C2 theorem at the sequence consisting of the
digit 5 with target 8. -/
theorem fitness_spec_witness :
    (pyEvaluate [Symb.digit 5] = .nan ∧ pyFitness [Symb.digit 5] 8 = .nan) ∨
    (∃ q, pyEvaluate [Symb.digit 5] = .ok (.flt q) ∧
      pyFitness [Symb.digit 5] 8 = .ok |(8 : ℚ) - q| ∧ 0 ≤ |(8 : ℚ) - q|) :=
  (fitness_spec [Symb.digit 5] 8).2 (.single 5)
